import Mathlib

/-!
# Celestial Bloom (Go tower defense): the simulation core of `main.go`

A shallow embedding of the per-frame update pipeline of `src/main.go`
(spawn scheduler, enemy movement, tower targeting and firing, projectile
collision, cleanup, placement and upgrade requests) together with the
geometry helpers it relies on.

Modelling conventions.

* `float64` values are scalars of an arbitrary linearly ordered field `R`
  (exact arithmetic: no rounding, no NaN, no infinities).  `math.Hypot` is
  the operation `Hypot.hypot` of the class `Hypot R`; the definitions never
  look inside it.  The instance on `ℚ` (floor square root of numerator and
  denominator, exact on rational squares) makes every definition executable.
* Where a statement is about the exact equality of computed coordinates,
  rounding decides it.  The path functions `computePathLengths` and
  `positionAlongPath` are therefore embedded a second time, in binary64
  (`computePathLengthsF64`, `positionAlongPathF64`): every operation rounds
  its exact result to the nearest number with a 53-bit significand.
* Go `int` values that can go down (`gold`, `lives`, `score`, `reward`) are
  integers `ℤ`; counters and identifiers that start at a non-negative
  constant and are only ever incremented (`id`, `nextEnemyID`, `targetID`,
  `enemiesSpawned`, `waveIndex`, `count`, `level`) are natural numbers.
* Slices of pointers (`[]*enemy`, `[]*tower`, `[]*projectile`) are lists of
  values; every element is allocated exactly once, so no two list entries
  alias.  A pointer into such a slice is an index into the list.
* A run-time panic (index out of range, `make` with a negative length) is the
  result `none`.
* `rand.Float64()` is read from a stream `rnd : ℕ → R` together with the
  number of values consumed so far; the cursor position and the mouse buttons
  are arguments.
* Presentation-only state (`background`, `sparkles`, `shimmer`,
  `lastUpdate`) is left out; `hoverValid` is kept because `updateTowers`
  writes it.
* A theorem that needs a property of `math.Hypot` (non-negative, zero only at
  the origin, even, `hypot(x,y)^2 = x^2 + y^2`) takes it as a hypothesis.
* Division is the division of the field.  Where a claim is about dividing by
  zero, `positionAlongPathDivisor` runs the loop of `positionAlongPath` once
  more and returns the divisor of the division the loop evaluates.
-/

namespace TowerDefense

/-- The scalar operation `math.Hypot`. -/
class Hypot (R : Type) where
  /-- The value of `math.Hypot(x, y)`. -/
  hypot : R → R → R

/-- Integer square root by halving, `fuel` bounding the recursion depth:
    `isqrt n = 2 * isqrt (n / 4)` or one more. -/
def isqrtFuel : ℕ → ℕ → ℕ
  | 0, _ => 0
  | fuel + 1, n =>
    if n = 0 then 0
    else
      let r := 2 * isqrtFuel fuel (n / 4)
      if (r + 1) * (r + 1) ≤ n then r + 1 else r

/-- The floor of the square root of `n`. -/
def isqrt (n : ℕ) : ℕ := isqrtFuel n n

/-- An executable `hypot` on the rationals: the floor square root of
    `x*x + y*y`, taken on numerator and denominator (exact whenever that sum
    is the square of a rational). -/
def ratHypot (x y : ℚ) : ℚ :=
  let s := x * x + y * y
  (isqrt s.num.toNat : ℚ) / (isqrt s.den : ℚ)

/-- Executable scalars: the rationals with `ratHypot`. -/
instance instHypotRat : Hypot ℚ where
  hypot := ratHypot

/-! ## Constants -/

def screenWidth : ℕ := 1024
def screenHeight : ℕ := 768
def pathWidth : ℕ := 52
def towerRadius : ℕ := 28
def enemyRadius : ℕ := 18
def towerCost : ℕ := 80
def upgradeCost : ℕ := 120
def startingGold : ℕ := 180
def startingLives : ℕ := 20
def projectileSpeed : ℕ := 420

/-! ## Data model -/

/-- The type `color.RGBA`: four 8-bit channels. -/
structure RGBA where
  R : ℕ
  G : ℕ
  B : ℕ
  A : ℕ
deriving DecidableEq

structure vec2 (R : Type) where
  X : R
  Y : R
deriving DecidableEq

structure enemy (R : Type) where
  id : ℕ
  progress : R
  speed : R
  health : R
  maxHealth : R
  reward : ℤ
  alive : Bool
  pos : vec2 R
deriving DecidableEq

structure tower (R : Type) where
  pos : vec2 R
  rangePx : R
  cooldown : R
  fireTimer : R
  level : ℕ
  color : RGBA
deriving DecidableEq

structure projectile (R : Type) where
  pos : vec2 R
  velocity : vec2 R
  damage : R
  targetID : ℕ
  color : RGBA
  alive : Bool
deriving DecidableEq

structure wave (R : Type) where
  count : ℕ
  spawnInterval : R
  speed : R
  health : R
  reward : ℤ
deriving DecidableEq

structure game (R : Type) where
  path : List (vec2 R)
  pathLengths : List R
  totalLength : R
  enemies : List (enemy R)
  towers : List (tower R)
  projectiles : List (projectile R)
  nextEnemyID : ℕ
  spawnTimer : R
  enemiesSpawned : ℕ
  waveIndex : ℕ
  waves : List (wave R)
  gold : ℤ
  lives : ℤ
  score : ℤ
  hoverValid : Bool
deriving DecidableEq

variable {R : Type} [LinearOrderedField R] [Hypot R]

/-! ## Geometry helpers -/

/-- Go `distance(a, b)`. -/
def distance (a b : vec2 R) : R :=
  Hypot.hypot (a.X - b.X) (a.Y - b.Y)

/-- Go `distancePointToSegment(p, a, b)`. -/
def distancePointToSegment (p a b : vec2 R) : R :=
  let ap : vec2 R := ⟨p.X - a.X, p.Y - a.Y⟩
  let ab : vec2 R := ⟨b.X - a.X, b.Y - a.Y⟩
  let abLen2 := ab.X * ab.X + ab.Y * ab.Y
  if abLen2 = 0 then distance p a
  else
    let t := (ap.X * ab.X + ap.Y * ab.Y) / abLen2
    let t := max 0 (min 1 t)
    let closest : vec2 R := ⟨a.X + ab.X * t, a.Y + ab.Y * t⟩
    distance p closest

/-- Go `upgradeColor(level)`: `palette[(level-1) % 4]`. -/
def upgradeColor (level : ℕ) : RGBA :=
  match (level - 1) % 4 with
  | 0 => ⟨252, 208, 35, 255⟩
  | 1 => ⟨96, 217, 231, 255⟩
  | 2 => ⟨180, 120, 255, 255⟩
  | _ => ⟨255, 108, 181, 255⟩

/-- Go `vibrantColor(i)`: `palette[i % 6]`. -/
def vibrantColor (i : ℕ) : RGBA :=
  match i % 6 with
  | 0 => ⟨120, 220, 255, 255⟩
  | 1 => ⟨254, 174, 120, 255⟩
  | 2 => ⟨186, 120, 255, 255⟩
  | 3 => ⟨140, 255, 170, 255⟩
  | 4 => ⟨255, 120, 200, 255⟩
  | _ => ⟨255, 236, 120, 255⟩

/-! ## Path model -/

/-- The values `distance(path[i], path[i+1])` for `i = 0 .. len(path)-2`, in
    order: what the loop of `computePathLengths` stores in `pathLengths`. -/
def segmentLengths : List (vec2 R) → List R
  | a :: b :: rest => distance a b :: segmentLengths (b :: rest)
  | _ => []

/-- Go `computePathLengths`.  `make([]float64, len(g.path)-1)` panics on an
    empty path; `totalLength` accumulates the segment lengths from `0`, in
    order. -/
def computePathLengths (g : game R) : Option (game R) :=
  if g.path.length = 0 then none
  else
    some { g with
      pathLengths := segmentLengths g.path
      totalLength := (segmentLengths g.path).foldl (fun acc seg => acc + seg) 0 }

/-- The loop of `positionAlongPath` from index `i` on, with `remaining` as it
    stands there and `lens` the entries `pathLengths[i:]`. -/
def positionAlongPathLoop (path : List (vec2 R)) : ℕ → R → List R → Option (vec2 R)
  | _, _, [] => path.getLast?
  | i, remaining, segLen :: lens =>
    if remaining ≤ segLen then
      let ratio := remaining / segLen
      match path[i]?, path[i + 1]? with
      | some start, some stop =>
        some ⟨start.X + (stop.X - start.X) * ratio, start.Y + (stop.Y - start.Y) * ratio⟩
      | _, _ => none
    else positionAlongPathLoop path (i + 1) (remaining - segLen) lens

/-- Go `positionAlongPath(progress)`. -/
def positionAlongPath (g : game R) (progress : R) : Option (vec2 R) :=
  positionAlongPathLoop g.path 0 progress g.pathLengths

/-! ## Placement validation -/

/-- The first loop of `canPlaceTower`: is `pos` closer than
    `pathWidth/2 + towerRadius - 6` to some segment `path[i], path[i+1]`?
    (The bound is an integer constant expression, `52/2 + 28 - 6 = 48`.) -/
def tooCloseToPath (pos : vec2 R) : List (vec2 R) → Bool
  | a :: b :: rest =>
    if distancePointToSegment pos a b < ((pathWidth / 2 + towerRadius - 6 : ℕ) : R) then true
    else tooCloseToPath pos (b :: rest)
  | _ => false

/-- The second loop of `canPlaceTower`: is `pos` closer than
    `towerRadius*2.1` to some existing tower? -/
def tooCloseToTower (pos : vec2 R) : List (tower R) → Bool
  | [] => false
  | t :: ts =>
    if distance pos t.pos < (towerRadius : R) * 2.1 then true
    else tooCloseToTower pos ts

/-- Go `canPlaceTower(pos)`. -/
def canPlaceTower (g : game R) (pos : vec2 R) : Bool :=
  if pos.X < (towerRadius : R) ∨ pos.Y < (towerRadius : R) ∨
      pos.X > ((screenWidth - towerRadius : ℕ) : R) ∨
      pos.Y > ((screenHeight - towerRadius : ℕ) : R) then false
  else if tooCloseToPath pos g.path then false
  else if tooCloseToTower pos g.towers then false
  else true

/-! ## Wave and spawn scheduler -/

/-- Go `spawnEnemies(dt)`. -/
def spawnEnemies (dt : R) (g : game R) : Option (game R) :=
  if h : g.waveIndex < g.waves.length then
    let w := g.waves[g.waveIndex]
    if g.enemiesSpawned ≥ w.count then
      if g.enemies.length = 0 then
        some { g with waveIndex := g.waveIndex + 1, enemiesSpawned := 0, spawnTimer := 0 }
      else some g
    else
      let timer := g.spawnTimer - dt
      if timer ≤ 0 then
        match positionAlongPath g 0 with
        | none => none
        | some p =>
          let e : enemy R :=
            { id := g.nextEnemyID, progress := 0, speed := w.speed, health := w.health,
              maxHealth := w.health, reward := w.reward, alive := true, pos := p }
          some { g with
            spawnTimer := w.spawnInterval
            nextEnemyID := g.nextEnemyID + 1
            enemies := g.enemies ++ [e]
            enemiesSpawned := g.enemiesSpawned + 1 }
      else some { g with spawnTimer := timer }
  else some g

/-! ## Enemy simulation -/

/-- One iteration of the loop of `updateEnemies`, on enemy `e` with `lives`
    as it stands: the new enemy and the new `lives`. -/
def updateEnemy (g : game R) (dt : R) (lives : ℤ) (e : enemy R) : Option (enemy R × ℤ) :=
  if e.alive = false then some (e, lives)
  else
    let progress := e.progress + e.speed * dt
    if progress ≥ g.totalLength then
      let lives := lives - 1
      let lives := if lives < 0 then 0 else lives
      some ({ e with progress := progress, alive := false }, lives)
    else
      match positionAlongPath g progress with
      | none => none
      | some p => some ({ e with progress := progress, pos := p }, lives)

/-- The loop of `updateEnemies` over the enemy list. -/
def updateEnemiesLoop (g : game R) (dt : R) : ℤ → List (enemy R) → Option (List (enemy R) × ℤ)
  | lives, [] => some ([], lives)
  | lives, e :: es =>
    match updateEnemy g dt lives e with
    | none => none
    | some (e1, lives1) =>
      match updateEnemiesLoop g dt lives1 es with
      | none => none
      | some (es1, lives2) => some (e1 :: es1, lives2)

/-- Go `updateEnemies(dt)`. -/
def updateEnemies (dt : R) (g : game R) : Option (game R) :=
  match updateEnemiesLoop g dt g.lives g.enemies with
  | none => none
  | some (es, lives) => some { g with enemies := es, lives := lives }

/-! ## Tower targeting and firing -/

/-- The loop of `findTarget` from list index `i` on; `chosen` is the index of
    the enemy chosen so far and `bestProgress` its progress. -/
def findTargetLoop (t : tower R) : List (enemy R) → ℕ → Option ℕ → R → Option ℕ
  | [], _, chosen, _ => chosen
  | e :: es, i, chosen, bestProgress =>
    if e.alive = false then findTargetLoop t es (i + 1) chosen bestProgress
    else if distance t.pos e.pos > t.rangePx then findTargetLoop t es (i + 1) chosen bestProgress
    else if e.progress > bestProgress then findTargetLoop t es (i + 1) (some i) e.progress
    else findTargetLoop t es (i + 1) chosen bestProgress

/-- Go `findTarget(t)`: the index in `g.enemies` of the enemy returned, or
    `none` for `nil`. -/
def findTarget (g : game R) (t : tower R) : Option ℕ :=
  findTargetLoop t g.enemies 0 none (-1)

/-- Go `fireProjectile(t, e)`, acting on the projectile list; `k` counts the
    values of `rand.Float64()` consumed so far.  `uint8(170 + 15*level)` wraps
    modulo 256. -/
def fireProjectile (t : tower R) (e : enemy R) (rnd : ℕ → R) (k : ℕ)
    (projectiles : List (projectile R)) : List (projectile R) × ℕ :=
  let dir : vec2 R := ⟨e.pos.X - t.pos.X, e.pos.Y - t.pos.Y⟩
  let mag := Hypot.hypot dir.X dir.Y
  if mag = 0 then (projectiles, k)
  else
    let dir : vec2 R := ⟨dir.X / mag, dir.Y / mag⟩
    let speed := (projectileSpeed : R) + rnd k * 80
    let proj : projectile R :=
      { pos := ⟨t.pos.X, t.pos.Y⟩
        velocity := ⟨dir.X * speed, dir.Y * speed⟩
        damage := 25 + (t.level : R) * 12
        targetID := e.id
        alive := true
        color := ⟨255, (170 + 15 * t.level) % 256, 140, 230⟩ }
    (projectiles ++ [proj], k + 1)

/-- The loop of `updateTowers` over the tower list: the towers as updated, the
    projectile list and the count of random values consumed. -/
def updateTowersLoop (g : game R) (dt : R) (rnd : ℕ → R) :
    List (tower R) → List (projectile R) → ℕ → List (tower R) × List (projectile R) × ℕ
  | [], projectiles, k => ([], projectiles, k)
  | t :: ts, projectiles, k =>
    let t1 : tower R := { t with fireTimer := t.fireTimer - dt }
    if t1.fireTimer > 0 then
      let r := updateTowersLoop g dt rnd ts projectiles k
      (t1 :: r.1, r.2)
    else
      match findTarget g t1 with
      | none =>
        let r := updateTowersLoop g dt rnd ts projectiles k
        (t1 :: r.1, r.2)
      | some i =>
        match g.enemies[i]? with
        | none =>
          let r := updateTowersLoop g dt rnd ts projectiles k
          (t1 :: r.1, r.2)
        | some target =>
          let t2 : tower R := { t1 with fireTimer := t1.cooldown }
          let fired := fireProjectile t2 target rnd k projectiles
          let r := updateTowersLoop g dt rnd ts fired.1 fired.2
          (t2 :: r.1, r.2)

/-- Go `updateTowers(dt)`; `cursor` is `ebiten.CursorPosition()`. -/
def updateTowers (dt : R) (cursor : vec2 R) (rnd : ℕ → R) (g : game R) : game R :=
  let g1 : game R := { g with hoverValid := canPlaceTower g cursor }
  let r := updateTowersLoop g1 dt rnd g1.towers g1.projectiles 0
  { g1 with towers := r.1, projectiles := r.2.1 }

/-! ## Projectile simulation -/

/-- The inner loop of `updateProjectiles` for a projectile `p` (already
    moved): the enemies, `gold` and `score` afterwards, and whether the loop
    ended in a hit (`p.alive = false; break`). -/
def hitLoop (p : projectile R) :
    List (enemy R) → ℤ → ℤ → List (enemy R) × ℤ × ℤ × Bool
  | [], gold, score => ([], gold, score, false)
  | e :: es, gold, score =>
    if e.alive = false ∨ e.id ≠ p.targetID then
      let r := hitLoop p es gold score
      (e :: r.1, r.2)
    else if distance p.pos e.pos ≤ (enemyRadius : R) then
      let e1 : enemy R := { e with health := e.health - p.damage }
      if e1.health ≤ 0 then
        ({ e1 with alive := false } :: es, gold + e1.reward, score + e1.reward * 3, true)
      else (e1 :: es, gold, score, true)
    else
      let r := hitLoop p es gold score
      (e :: r.1, r.2)

/-- The move of a projectile in `updateProjectiles(dt)`:
    `p.pos.X += p.velocity.X * dt; p.pos.Y += p.velocity.Y * dt`. -/
def moved (dt : R) (p : projectile R) : projectile R :=
  { p with pos := ⟨p.pos.X + p.velocity.X * dt, p.pos.Y + p.velocity.Y * dt⟩ }

/-- The outer loop of `updateProjectiles`: the projectiles as updated, and the
    enemies, `gold` and `score` afterwards. -/
def updateProjectilesLoop (dt : R) :
    List (projectile R) → List (enemy R) → ℤ → ℤ →
      List (projectile R) × List (enemy R) × ℤ × ℤ
  | [], enemies, gold, score => ([], enemies, gold, score)
  | p :: ps, enemies, gold, score =>
    if p.alive = false then
      let r := updateProjectilesLoop dt ps enemies gold score
      (p :: r.1, r.2)
    else
      let p1 : projectile R := moved dt p
      let h := hitLoop p1 enemies gold score
      let p2 : projectile R := if h.2.2.2 = true then { p1 with alive := false } else p1
      let p3 : projectile R :=
        if p2.pos.X < -60 ∨ p2.pos.Y < -60 ∨ p2.pos.X > ((screenWidth + 60 : ℕ) : R) ∨
            p2.pos.Y > ((screenHeight + 60 : ℕ) : R) then { p2 with alive := false }
        else p2
      let r := updateProjectilesLoop dt ps h.1 h.2.1 h.2.2.1
      (p3 :: r.1, r.2)

/-- Go `updateProjectiles(dt)`. -/
def updateProjectiles (dt : R) (g : game R) : game R :=
  let r := updateProjectilesLoop dt g.projectiles g.enemies g.gold g.score
  { g with projectiles := r.1, enemies := r.2.1, gold := r.2.2.1, score := r.2.2.2 }

/-- Go `cleanup()`: keep the living enemies and the living projectiles. -/
def cleanup (g : game R) : game R :=
  { g with
    enemies := g.enemies.filter (fun e => e.alive)
    projectiles := g.projectiles.filter (fun p => p.alive) }

/-! ## Requests: placement and upgrade -/

/-- Go `placeTower(pos)`; the zero value of `fireTimer` is `0`. -/
def placeTower (pos : vec2 R) (g : game R) : game R :=
  let col := vibrantColor g.towers.length
  let t : tower R :=
    { pos := pos, rangePx := 200, cooldown := 0.55, fireTimer := 0, level := 1, color := col }
  { g with towers := g.towers ++ [t] }

/-- The search loop of `upgradeTower` from list index `i` on; `closest` is the
    index of the tower picked so far and `bestDist` its distance. -/
def closestLoop (pos : vec2 R) : List (tower R) → ℕ → Option ℕ → R → Option ℕ
  | [], _, closest, _ => closest
  | t :: ts, i, closest, bestDist =>
    let d := distance pos t.pos
    if d < (towerRadius : R) ∧ d < bestDist then closestLoop pos ts (i + 1) (some i) d
    else closestLoop pos ts (i + 1) closest bestDist

/-- The upgrade applied to the tower `closest` points to. -/
def upgraded (t : tower R) : tower R :=
  let t1 : tower R := { t with level := t.level + 1 }
  let t2 : tower R := { t1 with rangePx := t1.rangePx + 24 }
  let t3 : tower R := { t2 with cooldown := t2.cooldown * 0.88 }
  { t3 with color := upgradeColor t3.level }

/-- Go `upgradeTower(pos)`. -/
def upgradeTower (pos : vec2 R) (g : game R) : game R :=
  match closestLoop pos g.towers 0 none 9999 with
  | none => g
  | some i =>
    if g.gold ≥ (upgradeCost : ℤ) then
      { g with
        gold := g.gold - (upgradeCost : ℤ)
        towers := g.towers.modify upgraded i }
    else g

/-- Go `handleInput()`: `pos` is the cursor position, `left` and `right` say
    whether the left and the right mouse button were just pressed. -/
def handleInput (pos : vec2 R) (left right : Bool) (g : game R) : game R :=
  let g1 : game R :=
    if left = true then
      if g.gold ≥ (towerCost : ℤ) ∧ canPlaceTower g pos = true then
        let g2 := placeTower pos g
        { g2 with gold := g2.gold - (towerCost : ℤ) }
      else g
    else g
  if right = true then upgradeTower pos g1 else g1

/-! ## Construction and the frame update -/

/-- The wave table of `newGame`. -/
def waveTable : List (wave R) :=
  [ { count := 6, spawnInterval := 0.85, speed := 80, health := 80, reward := 18 },
    { count := 8, spawnInterval := 0.75, speed := 100, health := 110, reward := 22 },
    { count := 10, spawnInterval := 0.65, speed := 110, health := 150, reward := 25 },
    { count := 12, spawnInterval := 0.6, speed := 120, health := 190, reward := 28 },
    { count := 1, spawnInterval := 0.0, speed := 70, health := 1200, reward := 120 } ]

/-- The waypoints of `newGame`. -/
def waypoints : List (vec2 R) :=
  [⟨100, -40⟩, ⟨100, 160⟩, ⟨260, 160⟩, ⟨260, 340⟩, ⟨500, 340⟩, ⟨500, 160⟩, ⟨720, 160⟩,
   ⟨720, 520⟩, ⟨880, 520⟩, ⟨880, 820⟩]

/-- Go `newGame()`, without the presentation state. -/
def newGame : Option (game R) :=
  let g : game R :=
    { path := waypoints, pathLengths := [], totalLength := 0, enemies := [], towers := [],
      projectiles := [], nextEnemyID := 0, spawnTimer := 0, enemiesSpawned := 0, waveIndex := 0,
      waves := [], gold := 0, lives := 0, score := 0, hoverValid := false }
  match computePathLengths g with
  | none => none
  | some g1 =>
    some { g1 with
      enemies := [], towers := [], projectiles := []
      gold := (startingGold : ℤ), lives := (startingLives : ℤ)
      waves := waveTable }

/-- The states the game can be in: `newGame`, then any finite sequence of
    requests (`handleInput` with a left click places, with a right click
    upgrades) and of the five tick phases, each with any `dt`. -/
inductive Reachable : game R → Prop
  | init (g : game R) : newGame = some g → Reachable g
  | request (g : game R) (pos : vec2 R) (left right : Bool) :
      Reachable g → Reachable (handleInput pos left right g)
  | spawn (g g1 : game R) (dt : R) :
      Reachable g → spawnEnemies dt g = some g1 → Reachable g1
  | enemies (g g1 : game R) (dt : R) :
      Reachable g → updateEnemies dt g = some g1 → Reachable g1
  | towers (g : game R) (dt : R) (cursor : vec2 R) (rnd : ℕ → R) :
      Reachable g → Reachable (updateTowers dt cursor rnd g)
  | projectiles (g : game R) (dt : R) :
      Reachable g → Reachable (updateProjectiles dt g)
  | cleanup (g : game R) :
      Reachable g → Reachable (cleanup g)

/-! ## Concrete states for the worked examples -/

/-- The state `newGame` builds, over the rationals. -/
def startState : game ℚ :=
  { path := waypoints
    pathLengths := [200, 160, 180, 240, 180, 220, 360, 160, 300]
    totalLength := 2000
    enemies := [], towers := [], projectiles := []
    nextEnemyID := 0, spawnTimer := 0, enemiesSpawned := 0, waveIndex := 0
    waves := waveTable
    gold := 180, lives := 20, score := 0, hoverValid := false }

/-! ## Predicates used in the statements -/

/-- The loop invariant of `findTarget`: what `chosen` and `bestProgress` say
    about the enemies `pre` already visited. -/
def TargetSoFar (t : tower R) (pre : List (enemy R)) (chosen : Option ℕ) (best : R) : Prop :=
  match chosen with
  | none =>
    best < 0 ∧ ∀ (i : ℕ) (e : enemy R), pre[i]? = some e →
      ¬ (e.alive = true ∧ distance t.pos e.pos ≤ t.rangePx)
  | some j =>
    ∃ e, pre[j]? = some e ∧ (e.alive = true ∧ distance t.pos e.pos ≤ t.rangePx) ∧
      e.progress = best ∧
      ∀ (i : ℕ) (x : enemy R), pre[i]? = some x →
        (x.alive = true ∧ distance t.pos x.pos ≤ t.rangePx) →
        x.progress ≤ best ∧ (x.progress = best → j ≤ i)

/-- Does enemy `e` reach the end of the path in an `updateEnemies(dt)` call:
    it is alive and its new progress is at least `totalLength`. -/
def reachesEnd (g : game R) (dt : R) (e : enemy R) : Bool :=
  e.alive && decide (g.totalLength ≤ e.progress + e.speed * dt)

/-- What one `updateEnemies(dt)` call does to an enemy `e`, giving `e1`. -/
def EnemyStep (g : game R) (dt : R) (e e1 : enemy R) : Prop :=
  (e.alive = false → e1 = e) ∧
  (e.alive = true → g.totalLength ≤ e.progress + e.speed * dt →
    e1 = { e with progress := e.progress + e.speed * dt, alive := false }) ∧
  (e.alive = true → e.progress + e.speed * dt < g.totalLength →
    ∃ p, positionAlongPath g (e.progress + e.speed * dt) = some p ∧
      e1 = { e with progress := e.progress + e.speed * dt, pos := p })

/-- A spot far from the path of `startState`. -/
def demoSpot : vec2 ℚ := ⟨600, 600⟩

/-- A tower at `(0, 0)` with range 200. -/
def demoTower : tower ℚ :=
  { pos := ⟨0, 0⟩, rangePx := 200, cooldown := 0.55, fireTimer := 0, level := 1,
    color := vibrantColor 0 }

/-- The start state with `demoTower` and two living enemies, at distance 150
    and at distance 250 from it. -/
def targetDemo : game ℚ :=
  { startState with
    towers := [demoTower]
    enemies :=
      [ { id := 0, progress := 10, speed := 80, health := 80, maxHealth := 80, reward := 18,
          alive := true, pos := ⟨150, 0⟩ },
        { id := 1, progress := 20, speed := 80, health := 80, maxHealth := 80, reward := 18,
          alive := true, pos := ⟨250, 0⟩ } ] }

/-- The straight lane `[(0,0), (100,0)]` of length 100 with one enemy of speed
    50 at its start. -/
def laneDemo : game ℚ :=
  { startState with
    path := [⟨0, 0⟩, ⟨100, 0⟩]
    pathLengths := [100]
    totalLength := 100
    enemies :=
      [ { id := 0, progress := 0, speed := 50, health := 80, maxHealth := 80, reward := 18,
          alive := true, pos := ⟨0, 0⟩ } ] }

/-- The lane after one second: the enemy is half way. -/
def laneDemoMid : game ℚ :=
  { laneDemo with
    enemies :=
      [ { id := 0, progress := 50, speed := 50, health := 80, maxHealth := 80, reward := 18,
          alive := true, pos := ⟨50, 0⟩ } ] }

/-- The lane after two seconds: the enemy has reached the end. -/
def laneDemoEnd : game ℚ :=
  { laneDemo with
    lives := 19
    enemies :=
      [ { id := 0, progress := 100, speed := 50, health := 80, maxHealth := 80, reward := 18,
          alive := false, pos := ⟨50, 0⟩ } ] }

/-- The enemy `e` after a hit with `damage`. -/
def damaged (damage : R) (e : enemy R) : enemy R :=
  { e with
    health := e.health - damage
    alive := if e.health - damage ≤ 0 then false else e.alive }

/-- A state with one enemy (health 30, reward 18) at `(150, 0)` and one
    projectile of damage 37 aimed at it, about to reach it. -/
def hitDemo : game ℚ :=
  { startState with
    enemies :=
      [ { id := 0, progress := 10, speed := 80, health := 30, maxHealth := 80, reward := 18,
          alive := true, pos := ⟨150, 0⟩ } ]
    projectiles :=
      [ { pos := ⟨140, 0⟩, velocity := ⟨400, 0⟩, damage := 37, targetID := 0,
          color := ⟨255, 185, 140, 230⟩, alive := true } ] }

/-- The state `hitDemo` after `updateProjectiles(1/100)`: the projectile
    is spent, the enemy is dead, gold is up by 18 and score by 54. -/
def hitDemoAfter : game ℚ :=
  { hitDemo with
    enemies :=
      [ { id := 0, progress := 10, speed := 80, health := -7, maxHealth := 80, reward := 18,
          alive := false, pos := ⟨150, 0⟩ } ]
    projectiles :=
      [ { pos := ⟨144, 0⟩, velocity := ⟨400, 0⟩, damage := 37, targetID := 0,
          color := ⟨255, 185, 140, 230⟩, alive := false } ]
    gold := 198
    score := 54 }

/-- The first wave (count 6) fully spawned, one enemy still on the path. -/
def drainDemo : game ℚ :=
  { startState with
    enemiesSpawned := 6
    spawnTimer := 1 / 2
    nextEnemyID := 6
    enemies :=
      [ { id := 5, progress := 10, speed := 80, health := 80, maxHealth := 80, reward := 18,
          alive := true, pos := ⟨100, -30⟩ } ] }

/-- The first wave (count 6) fully spawned, no enemy left. -/
def drainedDemo : game ℚ :=
  { startState with enemiesSpawned := 6, spawnTimer := 1 / 2, nextEnemyID := 6 }

/-- The loop invariant of the search in `upgradeTower`: what `closest` and
    `bestDist` say about the towers `pre` already visited. -/
def ClosestSoFar (P : vec2 R) (pre : List (tower R)) (closest : Option ℕ) (best : R) : Prop :=
  match closest with
  | none =>
    28 ≤ best ∧ ∀ (i : ℕ) (x : tower R), pre[i]? = some x → ¬ distance P x.pos < 28
  | some j =>
    ∃ t, pre[j]? = some t ∧ distance P t.pos < 28 ∧ distance P t.pos = best ∧
      ∀ (i : ℕ) (x : tower R), pre[i]? = some x →
        best ≤ distance P x.pos ∧ (distance P x.pos = best → j ≤ i)

/-- Gold 300 and two towers, at `(600, 600)` and at `(700, 600)`. -/
def upgradeDemo : game ℚ :=
  { startState with
    gold := 300
    towers :=
      [ { pos := ⟨600, 600⟩, rangePx := 200, cooldown := 0.55, fireTimer := 0, level := 1,
          color := vibrantColor 0 },
        { pos := ⟨700, 600⟩, rangePx := 200, cooldown := 0.55, fireTimer := 0, level := 1,
          color := vibrantColor 1 } ] }

/-! ## Division in `positionAlongPath` -/

/-- The loop of `positionAlongPath` again, returning the divisor `segLen` of
    the division `remaining / segLen` where the loop returns the interpolated
    point, and `none` where the loop ends without dividing. -/
def positionAlongPathDivisorLoop : R → List R → Option R
  | _, [] => none
  | remaining, segLen :: lens =>
    if remaining ≤ segLen then some segLen
    else positionAlongPathDivisorLoop (remaining - segLen) lens

/-- The divisor that `positionAlongPath(progress)` divides by, if it divides. -/
def positionAlongPathDivisor (g : game R) (progress : R) : Option R :=
  positionAlongPathDivisorLoop progress g.pathLengths

/-- A path whose first segment has length zero: `[(0,0), (0,0), (100,0)]`. -/
def zeroFirstDemo : game ℚ :=
  { startState with
    path := [⟨0, 0⟩, ⟨0, 0⟩, ⟨100, 0⟩]
    pathLengths := [0, 100]
    totalLength := 100 }

/-- A path of two coincident waypoints `[(5,5), (5,5)]`, of total length 0. -/
def pointDemo : game ℚ :=
  { startState with
    path := [⟨5, 5⟩, ⟨5, 5⟩]
    pathLengths := [0]
    totalLength := 0 }

/-- What holds of the timers of a tower in play: `fireTimer` is at most the
    cooldown of a new tower, and `cooldown` is `0.55 * 0.88^(level-1)`. -/
def TimerOk (t : tower R) : Prop :=
  t.fireTimer ≤ 0.55 ∧ t.cooldown = 0.55 * 0.88 ^ (t.level - 1) ∧ 1 ≤ t.level

/-- The numbering of the enemies in play: ids strictly increase along the
    list and are all below `nextEnemyID`. -/
def IdsOk (g : game R) : Prop :=
  (g.enemies.map (fun e => e.id)).Pairwise (fun a b => a < b) ∧
    ∀ x ∈ g.enemies.map (fun e => e.id), x < g.nextEnemyID

/-- The start state after one `spawnEnemies(1)`: enemy 0 is on the path. -/
def spawnedOnce : game ℚ :=
  { startState with
    spawnTimer := 0.85
    nextEnemyID := 1
    enemiesSpawned := 1
    enemies :=
      [ { id := 0, progress := 0, speed := 80, health := 80, maxHealth := 80, reward := 18,
          alive := true, pos := ⟨100, -40⟩ } ] }

/-- The start state after two `spawnEnemies(1)`: enemies 0 and 1. -/
def spawnedTwice : game ℚ :=
  { spawnedOnce with
    nextEnemyID := 2
    enemiesSpawned := 2
    enemies :=
      [ { id := 0, progress := 0, speed := 80, health := 80, maxHealth := 80, reward := 18,
          alive := true, pos := ⟨100, -40⟩ },
        { id := 1, progress := 0, speed := 80, health := 80, maxHealth := 80, reward := 18,
          alive := true, pos := ⟨100, -40⟩ } ] }

/-- One step of the game: a request or one of the five tick phases, with any
    `dt`. -/
inductive Step : game R → game R → Prop
  | request (g : game R) (pos : vec2 R) (left right : Bool) :
      Step g (handleInput pos left right g)
  | spawn (g g1 : game R) (dt : R) : spawnEnemies dt g = some g1 → Step g g1
  | enemies (g g1 : game R) (dt : R) : updateEnemies dt g = some g1 → Step g g1
  | towers (g : game R) (dt : R) (cursor : vec2 R) (rnd : ℕ → R) :
      Step g (updateTowers dt cursor rnd g)
  | projectiles (g : game R) (dt : R) : Step g (updateProjectiles dt g)
  | cleanup (g : game R) : Step g (cleanup g)

/-- The start state after buying a tower at `(600, 600)` and one at
    `(700, 600)`. -/
def twoTowers : game ℚ :=
  handleInput ⟨700, 600⟩ true false (handleInput demoSpot true false startState)

/-! ## Rewards of one `updateProjectiles` call -/

/-- The sum of the rewards of the enemies that are alive in the list `before`
    and dead at the same position of the list `after`. -/
def bounty : List (enemy R) → List (enemy R) → ℤ
  | b :: bs, a :: as =>
    (if b.alive = true ∧ a.alive = false then b.reward else 0) + bounty bs as
  | _, _ => 0

/-- The list `after` is the list `before` later in the same call: same
    length, same rewards, and no dead enemy has come back to life. -/
def Evolves : List (enemy R) → List (enemy R) → Prop
  | [], [] => True
  | b :: bs, a :: as => (a.reward = b.reward ∧ (b.alive = false → a.alive = false)) ∧ Evolves bs as
  | _, _ => False

/-- One enemy (health 30, reward 18) and two projectiles of damage 37 aimed at
    it, both about to reach it. -/
def doubleHitDemo : game ℚ :=
  { hitDemo with
    projectiles :=
      [ { pos := ⟨140, 0⟩, velocity := ⟨400, 0⟩, damage := 37, targetID := 0,
          color := ⟨255, 185, 140, 230⟩, alive := true },
        { pos := ⟨150, 10⟩, velocity := ⟨0, -400⟩, damage := 37, targetID := 0,
          color := ⟨255, 185, 140, 230⟩, alive := true } ] }

/-! ## Binary64 arithmetic

`float64` as the IEEE-754 binary64 format computes: every operation returns
the exact result rounded to the nearest number with a 53-bit significand,
ties to the even significand.  Values are the rationals they denote.  The
exponent range is not bounded (no overflow to an infinity, no subnormal
numbers), and a result that is not a number is `none`. -/

/-- An integer of magnitude below `2^b`.  For `b ≤ 53` such a number is a
    binary64 value. -/
def IntBelow (b : ℕ) (x : ℚ) : Prop := x.den = 1 ∧ x.num.natAbs < 2 ^ b

instance instDecidableIntBelow (b : ℕ) (x : ℚ) : Decidable (IntBelow b x) := by
  unfold IntBelow
  infer_instance

set_option linter.unusedSectionVars false

/-! ## The executable square root -/

theorem isqrtFuel_spec (fuel n : ℕ) (h : n ≤ fuel) :
    isqrtFuel fuel n * isqrtFuel fuel n ≤ n ∧
      n < (isqrtFuel fuel n + 1) * (isqrtFuel fuel n + 1) := by
  induction fuel generalizing n with
  | zero =>
    have : n = 0 := by omega
    subst this
    simp [isqrtFuel]
  | succ fuel ih =>
    unfold isqrtFuel
    by_cases hn : n = 0
    · simp [hn]
    · simp only [hn, if_false]
      have h4 : n / 4 ≤ fuel := by omega
      obtain ⟨h1, h2⟩ := ih (n / 4) h4
      generalize isqrtFuel fuel (n / 4) = q at h1 h2
      have hdiv : 4 * (n / 4) ≤ n := Nat.mul_div_le n 4
      have hlt : n < 4 * (n / 4) + 4 := by omega
      by_cases hc : (2 * q + 1) * (2 * q + 1) ≤ n
      · rw [if_pos hc]
        exact ⟨hc, by nlinarith⟩
      · rw [if_neg hc]
        exact ⟨by nlinarith, by omega⟩

theorem isqrt_mul_self (m : ℕ) : isqrt (m * m) = m := by
  obtain ⟨h1, h2⟩ := isqrtFuel_spec (m * m) (m * m) le_rfl
  unfold isqrt
  generalize isqrtFuel (m * m) (m * m) = r at h1 h2
  have a : r ≤ m := by
    by_contra hlt
    have : m + 1 ≤ r := by omega
    nlinarith
  have b : m ≤ r := by
    by_contra hlt
    have : r + 1 ≤ m := by omega
    nlinarith
  omega

/-- On an axis the rational `hypot` is exact. -/
theorem ratHypot_zero_right (x : ℚ) : ratHypot x 0 = |x| := by
  unfold ratHypot
  simp only [mul_zero, add_zero, Rat.mul_self_num, Rat.mul_self_den]
  rw [isqrt_mul_self]
  have : (x.num * x.num).toNat = x.num.natAbs * x.num.natAbs := by
    rw [← Int.natAbs_mul_self, Int.toNat_natCast]
  rw [this, isqrt_mul_self, Rat.abs_def, Rat.divInt_eq_div, Nat.cast_natAbs, Int.cast_abs]
  simp

theorem ratHypot_zero_left (y : ℚ) : ratHypot 0 y = |y| := by
  have h := ratHypot_zero_right y
  unfold ratHypot at h ⊢
  simpa [add_comm] using h

/-! ## Frame lemmas -/

theorem upgradeTower_frame (pos : vec2 R) (g : game R) :
    (upgradeTower pos g).enemies = g.enemies ∧ (upgradeTower pos g).waves = g.waves ∧
    (upgradeTower pos g).lives = g.lives ∧
    ((upgradeTower pos g).gold = g.gold ∨
      ((upgradeCost : ℤ) ≤ g.gold ∧ (upgradeTower pos g).gold = g.gold - (upgradeCost : ℤ))) := by
  unfold upgradeTower
  split
  · simp
  · split
    · rename_i h
      exact ⟨rfl, rfl, rfl, Or.inr ⟨h, rfl⟩⟩
    · simp

theorem handleInput_frame (pos : vec2 R) (left right : Bool) (g : game R) :
    (handleInput pos left right g).enemies = g.enemies ∧
    (handleInput pos left right g).waves = g.waves ∧
    (handleInput pos left right g).lives = g.lives ∧
    (0 ≤ g.gold → 0 ≤ (handleInput pos left right g).gold) := by
  unfold handleInput
  have key : ∀ g1 : game R, g1.enemies = g.enemies → g1.waves = g.waves → g1.lives = g.lives →
      (0 ≤ g.gold → 0 ≤ g1.gold) →
      (if right = true then upgradeTower pos g1 else g1).enemies = g.enemies ∧
      (if right = true then upgradeTower pos g1 else g1).waves = g.waves ∧
      (if right = true then upgradeTower pos g1 else g1).lives = g.lives ∧
      (0 ≤ g.gold → 0 ≤ (if right = true then upgradeTower pos g1 else g1).gold) := by
    intro g1 he hw hl hg
    split
    · obtain ⟨a, b, c, d⟩ := upgradeTower_frame pos g1
      refine ⟨a.trans he, b.trans hw, c.trans hl, fun h0 => ?_⟩
      have := hg h0
      rcases d with d | ⟨d1, d2⟩
      · omega
      · simp only [upgradeCost] at d1 d2 ⊢
        omega
    · exact ⟨he, hw, hl, hg⟩
  apply key
  · split <;> [split; skip] <;> simp [placeTower]
  · split <;> [split; skip] <;> simp [placeTower]
  · split <;> [split; skip] <;> simp [placeTower]
  · intro h0
    split
    · split
      · rename_i h
        simp only [placeTower, towerCost] at h ⊢
        omega
      · exact h0
    · exact h0

theorem waveTable_reward_nonneg (w : wave R) (h : w ∈ (waveTable : List (wave R))) :
    0 ≤ w.reward := by
  simp only [waveTable, List.mem_cons, List.mem_singleton, List.not_mem_nil, or_false] at h
  rcases h with h | h | h | h | h <;> subst h <;> simp

theorem spawnEnemies_inv (dt : R) (g g1 : game R) (h : spawnEnemies dt g = some g1)
    (hw : g.waves = waveTable) (hr : ∀ e ∈ g.enemies, 0 ≤ e.reward) :
    g1.gold = g.gold ∧ g1.lives = g.lives ∧ g1.waves = g.waves ∧
    ∀ e ∈ g1.enemies, 0 ≤ e.reward := by
  unfold spawnEnemies at h
  split at h
  · rename_i hlt
    have hmem : g.waves[g.waveIndex] ∈ (waveTable : List (wave R)) := by
      rw [← hw]
      exact List.getElem_mem _
    simp only at h
    split at h
    · split at h <;> (injection h with h; subst h; exact ⟨rfl, rfl, rfl, hr⟩)
    · split at h
      · split at h
        · exact absurd h (by simp)
        · injection h with h
          subst h
          refine ⟨rfl, rfl, rfl, ?_⟩
          intro e he
          simp only [List.mem_append, List.mem_singleton] at he
          rcases he with he | he
          · exact hr e he
          · subst he
            exact waveTable_reward_nonneg _ hmem
      · injection h with h
        subst h
        exact ⟨rfl, rfl, rfl, hr⟩
  · injection h with h
    subst h
    exact ⟨rfl, rfl, rfl, hr⟩

theorem updateEnemy_inv (g : game R) (dt : R) (lives : ℤ) (e e1 : enemy R) (l1 : ℤ)
    (h : updateEnemy g dt lives e = some (e1, l1)) (hl : 0 ≤ lives) :
    0 ≤ l1 ∧ e1.reward = e.reward := by
  unfold updateEnemy at h
  split at h
  · injection h with h
    injection h with h1 h2
    subst h1 h2
    exact ⟨hl, rfl⟩
  · simp only at h
    split at h
    · injection h with h
      injection h with h1 h2
      subst h1 h2
      refine ⟨?_, rfl⟩
      split <;> omega
    · split at h
      · exact absurd h (by simp)
      · injection h with h
        injection h with h1 h2
        subst h1 h2
        exact ⟨hl, rfl⟩

theorem updateEnemiesLoop_inv (g : game R) (dt : R) (es : List (enemy R)) :
    ∀ (lives : ℤ) (es1 : List (enemy R)) (l1 : ℤ),
      updateEnemiesLoop g dt lives es = some (es1, l1) → 0 ≤ lives →
      (∀ e ∈ es, 0 ≤ e.reward) → 0 ≤ l1 ∧ ∀ e ∈ es1, 0 ≤ e.reward := by
  induction es with
  | nil =>
    intro lives es1 l1 h hl _
    simp only [updateEnemiesLoop] at h
    injection h with h
    injection h with h1 h2
    subst h1 h2
    exact ⟨hl, by simp⟩
  | cons e es ih =>
    intro lives es1 l1 h hl hr
    simp only [updateEnemiesLoop] at h
    split at h
    · exact absurd h (by simp)
    · rename_i e1 lives1 hstep
      split at h
      · exact absurd h (by simp)
      · rename_i es2 lives2 hrest
        injection h with h
        injection h with h1 h2
        subst h1 h2
        obtain ⟨a, b⟩ := updateEnemy_inv g dt lives e e1 lives1 hstep hl
        obtain ⟨c, d⟩ := ih lives1 es2 lives2 hrest a (fun x hx => hr x (List.mem_cons_of_mem _ hx))
        refine ⟨c, ?_⟩
        intro x hx
        rcases List.mem_cons.mp hx with hx | hx
        · subst hx
          rw [b]
          exact hr e (List.mem_cons_self _ _)
        · exact d x hx

theorem updateEnemies_inv (dt : R) (g g1 : game R) (h : updateEnemies dt g = some g1)
    (hl : 0 ≤ g.lives) (hr : ∀ e ∈ g.enemies, 0 ≤ e.reward) :
    g1.gold = g.gold ∧ g1.waves = g.waves ∧ 0 ≤ g1.lives ∧ ∀ e ∈ g1.enemies, 0 ≤ e.reward := by
  unfold updateEnemies at h
  split at h
  · exact absurd h (by simp)
  · rename_i es lives hloop
    injection h with h
    subst h
    obtain ⟨a, b⟩ := updateEnemiesLoop_inv g dt g.enemies g.lives es lives hloop hl hr
    exact ⟨rfl, rfl, a, b⟩

theorem updateTowers_frame (dt : R) (cursor : vec2 R) (rnd : ℕ → R) (g : game R) :
    (updateTowers dt cursor rnd g).gold = g.gold ∧ (updateTowers dt cursor rnd g).lives = g.lives ∧
    (updateTowers dt cursor rnd g).waves = g.waves ∧
    (updateTowers dt cursor rnd g).enemies = g.enemies :=
  ⟨rfl, rfl, rfl, rfl⟩

theorem hitLoop_inv (p : projectile R) (es : List (enemy R)) (gold score : ℤ)
    (hr : ∀ e ∈ es, 0 ≤ e.reward) :
    gold ≤ (hitLoop p es gold score).2.1 ∧ ∀ e ∈ (hitLoop p es gold score).1, 0 ≤ e.reward := by
  induction es with
  | nil => simp [hitLoop]
  | cons e es ih =>
    have hre := hr e (List.mem_cons_self _ _)
    have hrs : ∀ x ∈ es, 0 ≤ x.reward := fun x hx => hr x (List.mem_cons_of_mem _ hx)
    obtain ⟨a, b⟩ := ih hrs
    simp only [hitLoop]
    split
    · refine ⟨a, ?_⟩
      intro x hx
      rcases List.mem_cons.mp hx with hx | hx
      · subst hx; exact hre
      · exact b x hx
    · split
      · split
        · refine ⟨by simp only; omega, ?_⟩
          intro x hx
          rcases List.mem_cons.mp hx with hx | hx
          · subst hx; exact hre
          · exact hrs x hx
        · refine ⟨le_refl _, ?_⟩
          intro x hx
          rcases List.mem_cons.mp hx with hx | hx
          · subst hx; exact hre
          · exact hrs x hx
      · refine ⟨a, ?_⟩
        intro x hx
        rcases List.mem_cons.mp hx with hx | hx
        · subst hx; exact hre
        · exact b x hx

theorem updateProjectilesLoop_inv (dt : R) (ps : List (projectile R)) :
    ∀ (es : List (enemy R)) (gold score : ℤ), (∀ e ∈ es, 0 ≤ e.reward) →
      gold ≤ (updateProjectilesLoop dt ps es gold score).2.2.1 ∧
      ∀ e ∈ (updateProjectilesLoop dt ps es gold score).2.1, 0 ≤ e.reward := by
  induction ps with
  | nil =>
    intro es gold score hr
    exact ⟨le_refl _, hr⟩
  | cons p ps ih =>
    intro es gold score hr
    simp only [updateProjectilesLoop]
    split
    · exact ih es gold score hr
    · obtain ⟨a, b⟩ := hitLoop_inv (moved dt p) es gold score hr
      obtain ⟨c, d⟩ := ih _ _ (hitLoop _ es gold score).2.2.1 b
      exact ⟨le_trans a c, d⟩

theorem segmentLengths_length (path : List (vec2 R)) :
    (segmentLengths path).length = path.length - 1 := by
  induction path with
  | nil => rfl
  | cons a rest ih =>
    cases rest with
    | nil => rfl
    | cons b rest =>
      simp only [segmentLengths, List.length_cons] at ih ⊢
      omega

theorem positionAlongPathLoop_isSome (path : List (vec2 R)) (lens : List R) :
    ∀ (i : ℕ) (remaining : R), i + lens.length + 1 = path.length →
      (positionAlongPathLoop path i remaining lens).isSome = true := by
  induction lens with
  | nil =>
    intro i remaining h
    simp only [positionAlongPathLoop]
    cases path with
    | nil => simp at h
    | cons a rest => simp [List.getLast?_cons_cons, List.getLast?_eq_getLast]
  | cons segLen lens ih =>
    intro i remaining h
    simp only [List.length_cons] at h
    simp only [positionAlongPathLoop]
    split
    · have h1 : i < path.length := by omega
      have h2 : i + 1 < path.length := by omega
      simp [List.getElem?_eq_getElem h1, List.getElem?_eq_getElem h2]
    · exact ih (i + 1) _ (by omega)

/-- A state whose path data is consistent: one stored length per segment. -/
theorem positionAlongPath_isSome (g : game R) (a : R)
    (h : g.pathLengths.length + 1 = g.path.length) : (positionAlongPath g a).isSome = true :=
  positionAlongPathLoop_isSome g.path g.pathLengths 0 a (by omega)

theorem newGame_eq (g : game R) (h : newGame = some g) :
    g.gold = 180 ∧ g.lives = 20 ∧ g.waves = waveTable ∧ g.enemies = [] ∧
    g.path = waypoints ∧ g.pathLengths = segmentLengths waypoints := by
  simp only [newGame, computePathLengths, waypoints, List.length_cons, List.length_nil] at h
  simp only [Nat.reduceAdd, OfNat.ofNat_ne_zero, if_false, Option.some.injEq] at h
  subst h
  simp [startingGold, startingLives, waypoints]

theorem handleInput_path (pos : vec2 R) (left right : Bool) (g : game R) :
    (handleInput pos left right g).path = g.path ∧
    (handleInput pos left right g).pathLengths = g.pathLengths := by
  have hu : ∀ g1 : game R, (upgradeTower pos g1).path = g1.path ∧
      (upgradeTower pos g1).pathLengths = g1.pathLengths := by
    intro g1
    unfold upgradeTower
    split
    · exact ⟨rfl, rfl⟩
    · split <;> exact ⟨rfl, rfl⟩
  have hl : ∀ g1 : game R, g1 = (if left = true then
      if g.gold ≥ (towerCost : ℤ) ∧ canPlaceTower g pos = true then
        { placeTower pos g with gold := (placeTower pos g).gold - (towerCost : ℤ) }
      else g else g) → g1.path = g.path ∧ g1.pathLengths = g.pathLengths := by
    intro g1 h
    subst h
    split <;> [split; skip] <;> exact ⟨rfl, rfl⟩
  unfold handleInput
  simp only
  split
  · rw [(hu _).1, (hu _).2]
    exact hl _ rfl
  · exact hl _ rfl

theorem spawnEnemies_path (dt : R) (g g1 : game R) (h : spawnEnemies dt g = some g1) :
    g1.path = g.path ∧ g1.pathLengths = g.pathLengths := by
  unfold spawnEnemies at h
  split at h
  · simp only at h
    split at h
    · split at h <;> (injection h with h; subst h; exact ⟨rfl, rfl⟩)
    · split at h
      · split at h
        · exact absurd h (by simp)
        · injection h with h
          subst h
          exact ⟨rfl, rfl⟩
      · injection h with h
        subst h
        exact ⟨rfl, rfl⟩
  · injection h with h
    subst h
    exact ⟨rfl, rfl⟩

theorem updateEnemies_path (dt : R) (g g1 : game R) (h : updateEnemies dt g = some g1) :
    g1.path = g.path ∧ g1.pathLengths = g.pathLengths := by
  unfold updateEnemies at h
  split at h
  · exact absurd h (by simp)
  · injection h with h
    subst h
    exact ⟨rfl, rfl⟩

/-- What every reachable state satisfies: the economy is non-negative, every
    enemy carries a non-negative reward, the wave table and the path data are
    those of `newGame`. -/
theorem Reachable.invariant (g : game R) (h : Reachable g) :
    0 ≤ g.gold ∧ 0 ≤ g.lives ∧ g.waves = waveTable ∧ (∀ e ∈ g.enemies, 0 ≤ e.reward) ∧
    g.pathLengths.length + 1 = g.path.length := by
  induction h with
  | init g h =>
    obtain ⟨a, b, c, d, e, f⟩ := newGame_eq g h
    refine ⟨by omega, by omega, c, by simp [d], ?_⟩
    rw [e, f, segmentLengths_length]
    simp [waypoints]
  | request g pos left right _ ih =>
    obtain ⟨a, b, c, d, e⟩ := ih
    obtain ⟨f1, f2, f3, f4⟩ := handleInput_frame pos left right g
    obtain ⟨p1, p2⟩ := handleInput_path pos left right g
    exact ⟨f4 a, by omega, f2.trans c, by rw [f1]; exact d, by rw [p1, p2]; exact e⟩
  | spawn g g1 dt _ hs ih =>
    obtain ⟨a, b, c, d, e⟩ := ih
    obtain ⟨f1, f2, f3, f4⟩ := spawnEnemies_inv dt g g1 hs c d
    obtain ⟨p1, p2⟩ := spawnEnemies_path dt g g1 hs
    exact ⟨by omega, by omega, f3.trans c, f4, by rw [p1, p2]; exact e⟩
  | enemies g g1 dt _ hs ih =>
    obtain ⟨a, b, c, d, e⟩ := ih
    obtain ⟨f1, f2, f3, f4⟩ := updateEnemies_inv dt g g1 hs b d
    obtain ⟨p1, p2⟩ := updateEnemies_path dt g g1 hs
    exact ⟨by omega, f3, f2.trans c, f4, by rw [p1, p2]; exact e⟩
  | towers g dt cursor rnd _ ih => exact ih
  | projectiles g dt _ ih =>
    obtain ⟨a, b, c, d, e⟩ := ih
    obtain ⟨f1, f2⟩ := updateProjectilesLoop_inv dt g.projectiles g.enemies g.gold g.score d
    exact ⟨le_trans a f1, b, c, f2, e⟩
  | cleanup g _ ih =>
    obtain ⟨a, b, c, d, e⟩ := ih
    exact ⟨a, b, c, fun x hx => d x (List.mem_of_mem_filter hx), e⟩

theorem updateEnemiesLoop_isSome (g : game R) (dt : R)
    (hp : g.pathLengths.length + 1 = g.path.length) (es : List (enemy R)) :
    ∀ lives : ℤ, (updateEnemiesLoop g dt lives es).isSome = true := by
  induction es with
  | nil => intro lives; rfl
  | cons e es ih =>
    intro lives
    have hstep : (updateEnemy g dt lives e).isSome = true := by
      unfold updateEnemy
      split
      · rfl
      · simp only
        split
        · rfl
        · have := positionAlongPath_isSome g (e.progress + e.speed * dt) hp
          split
          · rename_i hnone
            rw [hnone] at this
            exact absurd this (by simp)
          · rfl
    simp only [updateEnemiesLoop]
    split
    · rename_i hnone
      rw [hnone] at hstep
      exact absurd hstep (by simp)
    · rename_i e1 lives1 _
      have := ih lives1
      split
      · rename_i hnone
        rw [hnone] at this
        exact absurd this (by simp)
      · rfl

/-- On a state with consistent path data no phase panics. -/
theorem phases_isSome (g : game R) (dt : R) (hp : g.pathLengths.length + 1 = g.path.length) :
    (spawnEnemies dt g).isSome = true ∧ (updateEnemies dt g).isSome = true := by
  constructor
  · have := positionAlongPath_isSome g 0 hp
    unfold spawnEnemies
    split
    · simp only
      split
      · split <;> rfl
      · split
        · split
          · rename_i hnone
            rw [hnone] at this
            exact absurd this (by simp)
          · rfl
        · rfl
    · rfl
  · have := updateEnemiesLoop_isSome g dt hp g.enemies g.lives
    unfold updateEnemies
    split
    · rename_i hnone
      rw [hnone] at this
      exact absurd this (by simp)
    · rfl

/-- C1. From `newGame` (gold 180, lives 20, the fixed wave table), after any
    finite sequence of placement requests, upgrade requests and tick phases
    with any `dt`, `gold >= 0` and `lives >= 0`. -/
theorem gold_lives_nonneg (g : game R) (h : Reachable g) : 0 ≤ g.gold ∧ 0 ≤ g.lives :=
  ⟨(Reachable.invariant g h).1, (Reachable.invariant g h).2.1⟩

/-- C1, worked example: on the start state a tower is bought at `(600, 600)`;
    gold (now 100) and lives (20) are non-negative. -/
theorem gold_lives_nonneg_witness :
    0 ≤ (handleInput ⟨600, 600⟩ true false startState).gold ∧
      0 ≤ (handleInput ⟨600, 600⟩ true false startState).lives :=
  gold_lives_nonneg _ (Reachable.request _ _ _ _ (Reachable.init startState (by decide!)))

/-! ## Placement validation -/

theorem tooCloseToPath_eq_false (P : vec2 R) (path : List (vec2 R)) :
    tooCloseToPath P path = false ↔
      ∀ (i : ℕ) (h : i + 1 < path.length),
        (48 : R) ≤ distancePointToSegment P path[i] path[i + 1] := by
  induction path with
  | nil => simp [tooCloseToPath]
  | cons a rest ih =>
    cases rest with
    | nil => simp [tooCloseToPath]
    | cons b rest =>
      have hc : ((pathWidth / 2 + towerRadius - 6 : ℕ) : R) = 48 := by
        norm_num [pathWidth, towerRadius]
      simp only [tooCloseToPath, hc]
      constructor
      · intro h i hi
        split at h
        · exact absurd h (by simp)
        · rename_i hlt
          cases i with
          | zero => simpa using hlt
          | succ j =>
            have := (ih.mp h) j (by simpa using hi)
            simpa using this
      · intro h
        have h0 := h 0 (by simp)
        simp only [List.getElem_cons_zero, zero_add, List.getElem_cons_succ] at h0
        rw [if_neg (not_lt.mpr h0)]
        apply ih.mpr
        intro i hi
        have := h (i + 1) (by simpa using hi)
        simpa using this

theorem tooCloseToTower_eq_false (P : vec2 R) (towers : List (tower R)) :
    tooCloseToTower P towers = false ↔ ∀ t ∈ towers, (58.8 : R) ≤ distance P t.pos := by
  have hc : (towerRadius : R) * 2.1 = 58.8 := by norm_num [towerRadius]
  induction towers with
  | nil => simp [tooCloseToTower]
  | cons t ts ih =>
    simp only [tooCloseToTower, hc, List.mem_cons, forall_eq_or_imp]
    constructor
    · intro h
      split at h
      · exact absurd h (by simp)
      · rename_i hlt
        exact ⟨not_lt.mp hlt, ih.mp h⟩
    · rintro ⟨h1, h2⟩
      rw [if_neg (not_lt.mpr h1)]
      exact ih.mpr h2

/-- C2. `canPlaceTower(P)` is true exactly when `P` lies in the playfield
    inset by `towerRadius` (28), `P` is at distance at least
    `pathWidth/2 + towerRadius - 6 = 48` from every path segment, and `P` is at
    distance at least `2.1 * towerRadius = 58.8` from every existing tower. -/
theorem canPlaceTower_iff (g : game R) (P : vec2 R) :
    canPlaceTower g P = true ↔
      ((28 ≤ P.X ∧ P.X ≤ 1024 - 28) ∧ (28 ≤ P.Y ∧ P.Y ≤ 768 - 28)) ∧
      (∀ (i : ℕ) (h : i + 1 < g.path.length),
        (48 : R) ≤ distancePointToSegment P g.path[i] g.path[i + 1]) ∧
      (∀ t ∈ g.towers, (58.8 : R) ≤ distance P t.pos) := by
  have hw : ((screenWidth - towerRadius : ℕ) : R) = 1024 - 28 := by
    norm_num [screenWidth, towerRadius]
  have hh : ((screenHeight - towerRadius : ℕ) : R) = 768 - 28 := by
    norm_num [screenHeight, towerRadius]
  have hr : (towerRadius : R) = 28 := by norm_num [towerRadius]
  rw [← tooCloseToPath_eq_false, ← tooCloseToTower_eq_false]
  unfold canPlaceTower
  rw [hw, hh, hr]
  by_cases hb : P.X < 28 ∨ P.Y < 28 ∨ P.X > 1024 - 28 ∨ P.Y > 768 - 28
  · rw [if_pos hb]
    simp only [Bool.false_eq_true, false_iff, not_and]
    intro hin
    rcases hb with hb | hb | hb | hb
    · exact absurd hin.1.1 (not_le.mpr hb)
    · exact absurd hin.2.1 (not_le.mpr hb)
    · exact absurd hin.1.2 (not_le.mpr hb)
    · exact absurd hin.2.2 (not_le.mpr hb)
  · rw [if_neg hb]
    simp only [not_or, not_lt, gt_iff_lt] at hb
    obtain ⟨b1, b2, b3, b4⟩ := hb
    cases hp : tooCloseToPath P g.path <;> cases ht : tooCloseToTower P g.towers <;>
      simp [b1, b2, b3, b4]


/-- C2, worked example: on the start state `demoSpot = (600, 600)` is a legal
    place, so it meets the three conditions. -/
theorem canPlaceTower_iff_witness :
    ((28 ≤ demoSpot.X ∧ demoSpot.X ≤ 1024 - 28) ∧ (28 ≤ demoSpot.Y ∧ demoSpot.Y ≤ 768 - 28)) ∧
    (∀ (i : ℕ) (h : i + 1 < startState.path.length),
      (48 : ℚ) ≤ distancePointToSegment demoSpot startState.path[i] startState.path[i + 1]) ∧
    (∀ t ∈ startState.towers, (58.8 : ℚ) ≤ distance demoSpot t.pos) :=
  (canPlaceTower_iff startState demoSpot).mp (by decide!)

/-! ## Target selection -/

theorem getElem?_append_singleton {α : Type} (pre : List α) (e x : α) (i : ℕ) :
    (pre ++ [e])[i]? = some x ↔ pre[i]? = some x ∨ (i = pre.length ∧ x = e) := by
  rcases Nat.lt_trichotomy i pre.length with h | h | h
  · rw [List.getElem?_append_left h]
    constructor
    · exact Or.inl
    · rintro (h1 | ⟨h1, _⟩)
      · exact h1
      · omega
  · subst h
    simp [eq_comm]
  · rw [List.getElem?_eq_none (by simp; omega), List.getElem?_eq_none (by omega)]
    simp
    omega

theorem findTargetLoop_spec (t : tower R) (es : List (enemy R)) :
    ∀ (pre : List (enemy R)) (chosen : Option ℕ) (best : R),
      (∀ e ∈ es, 0 ≤ e.progress) → TargetSoFar t pre chosen best →
      ∃ b, TargetSoFar t (pre ++ es) (findTargetLoop t es pre.length chosen best) b := by
  induction es with
  | nil =>
    intro pre chosen best _ h
    exact ⟨best, by simpa [findTargetLoop] using h⟩
  | cons e es ih =>
    intro pre chosen best hp h
    have hpe : 0 ≤ e.progress := hp e (List.mem_cons_self _ _)
    have hps : ∀ x ∈ es, 0 ≤ x.progress := fun x hx => hp x (List.mem_cons_of_mem _ hx)
    have hlen : (pre ++ [e]).length = pre.length + 1 := by simp
    have happ : pre ++ e :: es = (pre ++ [e]) ++ es := by simp
    simp only [findTargetLoop]
    rw [happ, ← hlen]
    -- the state is kept: `e` is no candidate, or does not beat `bestProgress`
    have keep : (e.alive = true ∧ distance t.pos e.pos ≤ t.rangePx → e.progress ≤ best) →
        TargetSoFar t (pre ++ [e]) chosen best := by
      intro hno
      cases chosen with
      | none =>
        obtain ⟨h1, h2⟩ := h
        refine ⟨h1, ?_⟩
        intro i x hx
        rcases (getElem?_append_singleton pre e x i).mp hx with hx | ⟨_, hx⟩
        · exact h2 i x hx
        · subst hx
          intro hc
          have := hno hc
          exact absurd (lt_of_le_of_lt this h1) (not_lt.mpr hpe)
      | some j =>
        obtain ⟨c, h1, h2, h3, h4⟩ := h
        refine ⟨c, (getElem?_append_singleton pre e c j).mpr (Or.inl h1), h2, h3, ?_⟩
        intro i x hx hc
        rcases (getElem?_append_singleton pre e x i).mp hx with hx | ⟨hi, hx⟩
        · exact h4 i x hx hc
        · subst hx
          refine ⟨hno hc, fun _ => ?_⟩
          have : j < pre.length := by
            by_contra hj
            rw [List.getElem?_eq_none (by omega)] at h1
            exact absurd h1 (by simp)
          omega
    split
    · rename_i hdead
      exact ih (pre ++ [e]) chosen best hps (keep (fun hc => by simp [hdead] at hc))
    · split
      · rename_i hfar
        exact ih (pre ++ [e]) chosen best hps
          (keep (fun hc => absurd hc.2 (not_le.mpr hfar)))
      · rename_i halive hnear
        split
        · rename_i hbeat
          apply ih (pre ++ [e]) (some pre.length) e.progress hps
          have hcand : e.alive = true ∧ distance t.pos e.pos ≤ t.rangePx :=
            ⟨by simpa using halive, not_lt.mp hnear⟩
          refine ⟨e, by simp, hcand, rfl, ?_⟩
          intro i x hx hc
          rcases (getElem?_append_singleton pre e x i).mp hx with hx | ⟨hi, hx⟩
          · have hle : x.progress ≤ best := by
              cases chosen with
              | none => exact absurd hc (h.2 i x hx)
              | some j =>
                obtain ⟨c, _, _, _, h4⟩ := h
                exact (h4 i x hx hc).1
            exact ⟨le_of_lt (lt_of_le_of_lt hle hbeat),
              fun heq => absurd (heq ▸ hle) (not_le.mpr hbeat)⟩
          · subst hx
            exact ⟨le_refl _, fun _ => by omega⟩
        · rename_i hnobeat
          exact ih (pre ++ [e]) chosen best hps (keep (fun _ => not_lt.mp hnobeat))

/-- C3. When every progress value is `>= 0`: `findTarget` returns no enemy
    exactly when no living enemy is within `rangePx` of the tower; otherwise it
    returns a living enemy within `rangePx` whose progress is at least that of
    every living in-range enemy, and among those tied at that progress the one
    that comes first in the list. -/
theorem findTarget_spec (g : game R) (t : tower R) (hp : ∀ e ∈ g.enemies, 0 ≤ e.progress) :
    (findTarget g t = none ↔
      ∀ (i : ℕ) (e : enemy R), g.enemies[i]? = some e →
        ¬ (e.alive = true ∧ distance t.pos e.pos ≤ t.rangePx)) ∧
    (∀ j : ℕ, findTarget g t = some j →
      ∃ e, g.enemies[j]? = some e ∧ e.alive = true ∧ distance t.pos e.pos ≤ t.rangePx ∧
        ∀ (i : ℕ) (x : enemy R), g.enemies[i]? = some x → x.alive = true →
          distance t.pos x.pos ≤ t.rangePx →
          x.progress ≤ e.progress ∧ (x.progress = e.progress → j ≤ i)) := by
  have h0 : TargetSoFar t [] none (-1 : R) := ⟨by norm_num, by simp⟩
  obtain ⟨b, hb⟩ := findTargetLoop_spec t g.enemies [] none (-1) hp h0
  simp only [List.nil_append, List.length_nil] at hb
  have hdef : findTarget g t = findTargetLoop t g.enemies 0 none (-1) := rfl
  rw [hdef]
  constructor
  · constructor
    · intro hnone
      rw [hnone] at hb
      exact hb.2
    · intro hall
      cases hres : findTargetLoop t g.enemies 0 none (-1) with
      | none => rfl
      | some j =>
        rw [hres] at hb
        obtain ⟨c, h1, h2, _, _⟩ := hb
        exact absurd h2 (hall j c h1)
  · intro j hj
    rw [hj] at hb
    obtain ⟨c, h1, h2, h3, h4⟩ := hb
    refine ⟨c, h1, h2.1, h2.2, ?_⟩
    intro i x hx ha hd
    rw [h3]
    exact h4 i x hx ⟨ha, hd⟩

/-- C3, worked example: tower at `(0,0)` with range 200, living enemies at
    distance 150 and 250: the one at 150 (index 0) is returned. -/
theorem findTarget_spec_witness :
    findTarget targetDemo demoTower = some 0 ∧
    ∃ e, targetDemo.enemies[0]? = some e ∧ e.alive = true ∧
      distance demoTower.pos e.pos ≤ demoTower.rangePx ∧
      ∀ (i : ℕ) (x : enemy ℚ), targetDemo.enemies[i]? = some x → x.alive = true →
        distance demoTower.pos x.pos ≤ demoTower.rangePx →
        x.progress ≤ e.progress ∧ (x.progress = e.progress → 0 ≤ i) :=
  ⟨by decide!, (findTarget_spec targetDemo demoTower (by decide!)).2 0 (by decide!)⟩

/-! ## Enemy simulation -/

theorem updateEnemy_spec (g : game R) (dt : R) (lives : ℤ) (e : enemy R)
    (hp : g.pathLengths.length + 1 = g.path.length) (hl : 0 ≤ lives) :
    ∃ e1, updateEnemy g dt lives e =
        some (e1, max 0 (lives - if reachesEnd g dt e = true then 1 else 0)) ∧
      EnemyStep g dt e e1 := by
  unfold updateEnemy reachesEnd EnemyStep
  rcases Bool.eq_false_or_eq_true e.alive with ha | ha
  · by_cases hend : g.totalLength ≤ e.progress + e.speed * dt
    · refine ⟨{ e with progress := e.progress + e.speed * dt, alive := false }, ?_, ?_⟩
      · simp only [ha, Bool.true_eq_false, if_false, ge_iff_le, hend, if_true, Bool.true_and,
          decide_True]
        congr 2
        by_cases h0 : lives - 1 < 0
        · rw [if_pos h0]; omega
        · rw [if_neg h0]; omega
      · simp [ha, hend]
    · have hsome := positionAlongPath_isSome g (e.progress + e.speed * dt) hp
      obtain ⟨p, hpos⟩ := Option.isSome_iff_exists.mp hsome
      refine ⟨{ e with progress := e.progress + e.speed * dt, pos := p }, ?_, ?_⟩
      · simp [ha, hend, hpos, hl]
      · simp only [ha, Bool.true_eq_false, false_implies, true_implies, true_and]
        exact ⟨fun h => absurd h hend, fun _ => ⟨p, hpos, rfl⟩⟩
  · refine ⟨e, ?_, ?_⟩
    · simp [ha, hl]
    · simp [ha]

theorem updateEnemiesLoop_spec (g : game R) (dt : R)
    (hp : g.pathLengths.length + 1 = g.path.length) (es : List (enemy R)) :
    ∀ lives : ℤ, 0 ≤ lives →
      ∃ es1, updateEnemiesLoop g dt lives es =
          some (es1, max 0 (lives - (es.countP (reachesEnd g dt) : ℤ))) ∧
        es1.length = es.length ∧
        ∀ (i : ℕ) (e : enemy R), es[i]? = some e →
          ∃ e1, es1[i]? = some e1 ∧ EnemyStep g dt e e1 := by
  induction es with
  | nil =>
    intro lives hl
    exact ⟨[], by simp [updateEnemiesLoop, hl], rfl, by simp⟩
  | cons e es ih =>
    intro lives hl
    obtain ⟨e1, h1, hstep⟩ := updateEnemy_spec g dt lives e hp hl
    obtain ⟨es1, h2, hlen, hall⟩ :=
      ih (max 0 (lives - if reachesEnd g dt e = true then 1 else 0)) (le_max_left _ _)
    refine ⟨e1 :: es1, ?_, by simp [hlen], ?_⟩
    · simp only [updateEnemiesLoop, h1, h2, List.countP_cons]
      congr 2
      by_cases hr : reachesEnd g dt e = true
      · simp only [hr, if_true, Nat.cast_add, Nat.cast_one]
        omega
      · simp only [hr, if_false, sub_zero, add_zero, Bool.false_eq_true]
        omega
    · intro i x hx
      cases i with
      | zero =>
        simp only [List.getElem?_cons_zero, Option.some.injEq] at hx
        subst hx
        exact ⟨e1, by simp, hstep⟩
      | succ j =>
        simp only [List.getElem?_cons_succ] at hx ⊢
        exact hall j x hx

/-- C4. On a state with `lives >= 0` (and one stored length per path segment),
    `updateEnemies(dt)` returns; it leaves dead enemies unchanged; a living
    enemy gets `progress + speed*dt`, and if that is `>= totalLength` it is
    marked dead with its position unchanged, otherwise it stays alive at
    `positionAlongPath(new progress)`; `lives` becomes
    `max(0, lives - number of enemies that reached the end)`; nothing else
    changes. -/
theorem updateEnemies_spec (g : game R) (dt : R) (hl : 0 ≤ g.lives)
    (hp : g.pathLengths.length + 1 = g.path.length) :
    ∃ es1, updateEnemies dt g =
        some { g with
          enemies := es1
          lives := max 0 (g.lives - (g.enemies.countP (reachesEnd g dt) : ℤ)) } ∧
      es1.length = g.enemies.length ∧
      ∀ (i : ℕ) (e : enemy R), g.enemies[i]? = some e →
        ∃ e1, es1[i]? = some e1 ∧
          (e.alive = false → e1 = e) ∧
          (e.alive = true → g.totalLength ≤ e.progress + e.speed * dt →
            e1 = { e with progress := e.progress + e.speed * dt, alive := false }) ∧
          (e.alive = true → e.progress + e.speed * dt < g.totalLength →
            ∃ p, positionAlongPath g (e.progress + e.speed * dt) = some p ∧
              e1 = { e with progress := e.progress + e.speed * dt, pos := p }) := by
  obtain ⟨es1, h, hlen, hall⟩ := updateEnemiesLoop_spec g dt hp g.enemies g.lives hl
  refine ⟨es1, ?_, hlen, hall⟩
  unfold updateEnemies
  rw [h]

/-- C4, worked example: path `[(0,0),(100,0)]`, speed 50, `dt = 1` twice: after
    the first call the enemy is at progress 50, after the second at progress
    100, dead, with one life lost (20 to 19). -/
theorem updateEnemies_spec_witness :
    computePathLengths laneDemo = some laneDemo ∧
    updateEnemies 1 laneDemo = some laneDemoMid ∧
    updateEnemies 1 laneDemoMid = some laneDemoEnd ∧
    ∃ es1, updateEnemies 1 laneDemoMid =
        some { laneDemoMid with
          enemies := es1
          lives := max 0 (laneDemoMid.lives -
            (laneDemoMid.enemies.countP (reachesEnd laneDemoMid 1) : ℤ)) } ∧
      es1.length = laneDemoMid.enemies.length ∧
      ∀ (i : ℕ) (e : enemy ℚ), laneDemoMid.enemies[i]? = some e →
        ∃ e1, es1[i]? = some e1 ∧
          (e.alive = false → e1 = e) ∧
          (e.alive = true → laneDemoMid.totalLength ≤ e.progress + e.speed * 1 →
            e1 = { e with progress := e.progress + e.speed * 1, alive := false }) ∧
          (e.alive = true → e.progress + e.speed * 1 < laneDemoMid.totalLength →
            ∃ p, positionAlongPath laneDemoMid (e.progress + e.speed * 1) = some p ∧
              e1 = { e with progress := e.progress + e.speed * 1, pos := p }) :=
  ⟨by decide!, by decide!, by decide!, updateEnemies_spec laneDemoMid 1 (by decide!) (by decide!)⟩

/-! ## Projectile simulation -/

theorem hitLoop_hit (p : projectile R) (es : List (enemy R)) :
    ∀ (j : ℕ) (e : enemy R) (gold score : ℤ), es[j]? = some e → e.alive = true →
      e.id = p.targetID → distance p.pos e.pos ≤ (18 : R) →
      (∀ (i : ℕ) (x : enemy R), i < j → es[i]? = some x →
        ¬ (x.alive = true ∧ x.id = p.targetID ∧ distance p.pos x.pos ≤ (18 : R))) →
      hitLoop p es gold score =
        (es.set j (damaged p.damage e),
          if e.health - p.damage ≤ 0 then gold + e.reward else gold,
          if e.health - p.damage ≤ 0 then score + e.reward * 3 else score,
          true) := by
  have hc : ((enemyRadius : ℕ) : R) = 18 := by norm_num [enemyRadius]
  induction es with
  | nil => intro j e gold score h; simp at h
  | cons a es ih =>
    intro j e gold score hj ha hid hnear hfirst
    cases j with
    | zero =>
      simp only [List.getElem?_cons_zero, Option.some.injEq] at hj
      subst hj
      simp only [hitLoop, hc, ha, hid, hnear, List.set_cons_zero, damaged]
      by_cases hdead : a.health - p.damage ≤ 0
      · simp [hdead]
      · simp [hdead, ha]
    | succ j =>
      simp only [List.getElem?_cons_succ] at hj
      have h0 := hfirst 0 a (Nat.succ_pos j) (by simp)
      have hrest := ih j e gold score hj ha hid hnear
        (fun i x hi hx => hfirst (i + 1) x (by omega) (by simpa using hx))
      simp only [hitLoop, hc, List.set_cons_succ]
      by_cases hskip : a.alive = false ∨ a.id ≠ p.targetID
      · rw [if_pos hskip, hrest]
      · rw [if_neg hskip]
        have hfar : ¬ distance p.pos a.pos ≤ (18 : R) := by
          intro hd
          apply h0
          refine ⟨?_, ?_, hd⟩
          · by_contra hna
            exact hskip (Or.inl (by simpa using hna))
          · by_contra hne
            exact hskip (Or.inr hne)
        rw [if_neg hfar, hrest]

theorem updateProjectilesLoop_dead (dt : R) (ps : List (projectile R))
    (hdead : ∀ q ∈ ps, q.alive = false) (es : List (enemy R)) (gold score : ℤ) :
    updateProjectilesLoop dt ps es gold score = (ps, es, gold, score) := by
  induction ps with
  | nil => rfl
  | cons q ps ih =>
    have hq := hdead q (List.mem_cons_self _ _)
    simp only [updateProjectilesLoop, hq, if_true]
    rw [ih (fun x hx => hdead x (List.mem_cons_of_mem _ hx))]

theorem updateProjectilesLoop_single (dt : R) (es : List (enemy R)) (j : ℕ) (e : enemy R)
    (gold score : ℤ) (p : projectile R) (hp : p.alive = true)
    (hj : es[j]? = some e) (ha : e.alive = true) (hid : e.id = p.targetID)
    (hnear : distance (moved dt p).pos e.pos ≤ (18 : R))
    (hfirst : ∀ (i : ℕ) (x : enemy R), i < j → es[i]? = some x →
      ¬ (x.alive = true ∧ x.id = p.targetID ∧ distance (moved dt p).pos x.pos ≤ (18 : R)))
    (ps : List (projectile R)) :
    ∀ k : ℕ, ps[k]? = some p →
      (∀ (i : ℕ) (q : projectile R), ps[i]? = some q → q.alive = true → i = k) →
      updateProjectilesLoop dt ps es gold score =
        (ps.set k { moved dt p with alive := false }, es.set j (damaged p.damage e),
          if e.health - p.damage ≤ 0 then gold + e.reward else gold,
          if e.health - p.damage ≤ 0 then score + e.reward * 3 else score) := by
  induction ps with
  | nil => intro k h; simp at h
  | cons q ps ih =>
    intro k hk honly
    cases k with
    | zero =>
      simp only [List.getElem?_cons_zero, Option.some.injEq] at hk
      subst hk
      have hrest : ∀ x ∈ ps, x.alive = false := by
        intro x hx
        obtain ⟨i, hi⟩ := List.getElem?_of_mem hx
        by_contra hne
        have := honly (i + 1) x (by simpa using hi) (by simpa using hne)
        omega
      have hhit := hitLoop_hit (moved dt q) es j e gold score hj ha hid hnear hfirst
      have hdmg : (moved dt q).damage = q.damage := rfl
      rw [hdmg] at hhit
      simp only [updateProjectilesLoop, hp, Bool.true_eq_false, if_false, hhit, if_true,
        List.set_cons_zero]
      rw [updateProjectilesLoop_dead dt ps hrest]
      simp
    | succ k =>
      simp only [List.getElem?_cons_succ] at hk
      have hq : q.alive = false := by
        by_contra hne
        have := honly 0 q (by simp) (by simpa using hne)
        omega
      simp only [updateProjectilesLoop, hq, if_true, List.set_cons_succ]
      rw [ih k hk (fun i x hi hx => by
        have := honly (i + 1) x (by simpa using hi) hx
        omega)]

/-- C5. In a state whose only living projectile `p` (at index `k`) is, after
    moving by `velocity*dt`, within `enemyRadius` (18) of a living enemy `e`
    (at index `j`) with `e.id = p.targetID`, no earlier living enemy with that
    id being in hit radius (in particular when `e` is the living enemy with
    that id): `updateProjectiles` subtracts exactly `p.damage` from the health
    of `e` and marks `p` dead; if the new health is `<= 0` the enemy is marked
    dead, gold grows by its reward `R` and score by `3R`; otherwise the enemy
    stays alive and gold and score are unchanged; every other enemy and every
    other part of the state is unchanged. -/
theorem updateProjectiles_hit (g : game R) (dt : R) (k j : ℕ) (p : projectile R) (e : enemy R)
    (hk : g.projectiles[k]? = some p) (hp : p.alive = true)
    (honly : ∀ (i : ℕ) (q : projectile R), g.projectiles[i]? = some q → q.alive = true → i = k)
    (hj : g.enemies[j]? = some e) (ha : e.alive = true) (hid : e.id = p.targetID)
    (hnear : distance (moved dt p).pos e.pos ≤ (18 : R))
    (hfirst : ∀ (i : ℕ) (x : enemy R), i < j → g.enemies[i]? = some x →
      ¬ (x.alive = true ∧ x.id = p.targetID ∧ distance (moved dt p).pos x.pos ≤ (18 : R))) :
    updateProjectiles dt g =
      { g with
        projectiles := g.projectiles.set k { moved dt p with alive := false }
        enemies := g.enemies.set j
          { e with
            health := e.health - p.damage
            alive := if e.health - p.damage ≤ 0 then false else true }
        gold := if e.health - p.damage ≤ 0 then g.gold + e.reward else g.gold
        score := if e.health - p.damage ≤ 0 then g.score + e.reward * 3 else g.score } := by
  unfold updateProjectiles
  rw [updateProjectilesLoop_single dt g.enemies j e g.gold g.score p hp hj ha hid hnear hfirst
    g.projectiles k hk honly]
  simp [damaged, ha]


/-- C5, worked example: a kill.  The projectile of `hitDemo` moves to
    `(144, 0)`, 6 away from the enemy, and takes its last 30 health points:
    gold goes from 180 to 198 (`R = 18`), score from 0 to 54 (`3R`). -/
theorem updateProjectiles_hit_witness :
    updateProjectiles (1 / 100) hitDemo = hitDemoAfter ∧
    updateProjectiles (1 / 100) hitDemo =
      { hitDemo with
        projectiles := hitDemo.projectiles.set 0
          { moved (1 / 100) ⟨⟨140, 0⟩, ⟨400, 0⟩, 37, 0, ⟨255, 185, 140, 230⟩, true⟩ with
            alive := false }
        enemies := hitDemo.enemies.set 0
          { id := 0, progress := 10, speed := 80, health := 30 - 37, maxHealth := 80,
            reward := 18, alive := if (30 : ℚ) - 37 ≤ 0 then false else true, pos := ⟨150, 0⟩ }
        gold := if (30 : ℚ) - 37 ≤ 0 then hitDemo.gold + 18 else hitDemo.gold
        score := if (30 : ℚ) - 37 ≤ 0 then hitDemo.score + 18 * 3 else hitDemo.score } :=
  ⟨by decide!,
    updateProjectiles_hit hitDemo (1 / 100) 0 0
      ⟨⟨140, 0⟩, ⟨400, 0⟩, 37, 0, ⟨255, 185, 140, 230⟩, true⟩
      ⟨0, 10, 80, 30, 80, 18, true, ⟨150, 0⟩⟩
      (by decide!) (by decide!)
      (fun i q h _ => by
        cases i with
        | zero => rfl
        | succ n => simp [hitDemo] at h)
      (by decide!) (by decide!) (by decide!) (by decide!)
      (fun i _ hi _ => absurd hi (Nat.not_lt_zero i))⟩

/-! ## Wave and spawn scheduler -/

/-- C6. In a state with `waveIndex < len(waves)` and `enemiesSpawned` below
    the count of the current wave (and one stored length per path segment),
    `spawnEnemies(dt)` returns and leaves `waveIndex` unchanged; if
    `spawnTimer - dt <= 0` it appends exactly one enemy (progress 0, alive,
    `id = nextEnemyID`, speed, health, maxHealth and reward of the wave,
    position `positionAlongPath(0)`), sets `spawnTimer` to the wave's
    `spawnInterval` and increments `enemiesSpawned` and `nextEnemyID`; if
    `spawnTimer - dt > 0` it only sets `spawnTimer` to `spawnTimer - dt`. -/
theorem spawnEnemies_spawning (g : game R) (dt : R) (hw : g.waveIndex < g.waves.length)
    (hs : g.enemiesSpawned < g.waves[g.waveIndex].count)
    (hp : g.pathLengths.length + 1 = g.path.length) :
    ∃ g1, spawnEnemies dt g = some g1 ∧ g1.waveIndex = g.waveIndex ∧
      (g.spawnTimer - dt ≤ 0 →
        ∃ p, positionAlongPath g 0 = some p ∧
          g1 = { g with
            spawnTimer := g.waves[g.waveIndex].spawnInterval
            nextEnemyID := g.nextEnemyID + 1
            enemies := g.enemies ++
              [{ id := g.nextEnemyID, progress := 0, speed := g.waves[g.waveIndex].speed,
                 health := g.waves[g.waveIndex].health,
                 maxHealth := g.waves[g.waveIndex].health,
                 reward := g.waves[g.waveIndex].reward, alive := true, pos := p }]
            enemiesSpawned := g.enemiesSpawned + 1 }) ∧
      (0 < g.spawnTimer - dt → g1 = { g with spawnTimer := g.spawnTimer - dt }) := by
  obtain ⟨p, hpos⟩ := Option.isSome_iff_exists.mp (positionAlongPath_isSome g 0 hp)
  unfold spawnEnemies
  simp only [hw, dite_true, ge_iff_le, not_le.mpr hs, if_false, hpos]
  by_cases ht : g.spawnTimer - dt ≤ 0
  · rw [if_pos ht]
    exact ⟨_, rfl, rfl, fun _ => ⟨p, rfl, rfl⟩, fun h => absurd ht (not_le.mpr h)⟩
  · rw [if_neg ht]
    exact ⟨_, rfl, rfl, fun h => absurd h ht, fun _ => rfl⟩

/-- C6, worked example: on the start state (timer 0, wave 0) a call with
    `dt = 1/60` spawns enemy 0 of the first wave at the first waypoint. -/
theorem spawnEnemies_spawning_witness :
    ∃ g1, spawnEnemies (1 / 60) startState = some g1 ∧ g1.waveIndex = startState.waveIndex ∧
      (startState.spawnTimer - 1 / 60 ≤ 0 →
        ∃ p, positionAlongPath startState 0 = some p ∧
          g1 = { startState with
            spawnTimer := 0.85
            nextEnemyID := 0 + 1
            enemies := [] ++
              [{ id := 0, progress := 0, speed := 80, health := 80, maxHealth := 80,
                 reward := 18, alive := true, pos := p }]
            enemiesSpawned := 0 + 1 }) ∧
      (0 < startState.spawnTimer - 1 / 60 →
        g1 = { startState with spawnTimer := startState.spawnTimer - 1 / 60 }) :=
  spawnEnemies_spawning startState (1 / 60) (by decide!) (by decide!) (by decide!)

theorem spawnEnemies_scheduler (dt : R) (g g1 : game R) (h : spawnEnemies dt g = some g1)
    (hinv : ∀ hw : g.waveIndex < g.waves.length, g.enemiesSpawned ≤ g.waves[g.waveIndex].count)
    (h0 : g.waves.length ≤ g.waveIndex → g.enemiesSpawned = 0) :
    g1.waves = g.waves ∧
    (∀ hw : g1.waveIndex < g1.waves.length, g1.enemiesSpawned ≤ g1.waves[g1.waveIndex].count) ∧
    (g1.waves.length ≤ g1.waveIndex → g1.enemiesSpawned = 0) := by
  unfold spawnEnemies at h
  split at h
  · rename_i hlt
    simp only at h
    split at h
    · split at h
      · injection h with h
        subst h
        exact ⟨rfl, fun _ => Nat.zero_le _, fun _ => rfl⟩
      · injection h with h
        subst h
        exact ⟨rfl, hinv, h0⟩
    · rename_i hnot
      split at h
      · split at h
        · exact absurd h (by simp)
        · injection h with h
          subst h
          refine ⟨rfl, fun _ => ?_, fun hge => ?_⟩
          · simp only [ge_iff_le, not_le] at hnot
            exact hnot
          · exact absurd hlt (not_lt.mpr hge)
      · injection h with h
        subst h
        exact ⟨rfl, hinv, h0⟩
  · injection h with h
    subst h
    exact ⟨rfl, hinv, h0⟩

theorem handleInput_scheduler (pos : vec2 R) (left right : Bool) (g : game R) :
    (handleInput pos left right g).waves = g.waves ∧
    (handleInput pos left right g).waveIndex = g.waveIndex ∧
    (handleInput pos left right g).enemiesSpawned = g.enemiesSpawned := by
  have hu : ∀ g1 : game R, (upgradeTower pos g1).waves = g1.waves ∧
      (upgradeTower pos g1).waveIndex = g1.waveIndex ∧
      (upgradeTower pos g1).enemiesSpawned = g1.enemiesSpawned := by
    intro g1
    unfold upgradeTower
    split
    · exact ⟨rfl, rfl, rfl⟩
    · split <;> exact ⟨rfl, rfl, rfl⟩
  have hl : ∀ g1 : game R, g1 = (if left = true then
      if g.gold ≥ (towerCost : ℤ) ∧ canPlaceTower g pos = true then
        { placeTower pos g with gold := (placeTower pos g).gold - (towerCost : ℤ) }
      else g else g) →
      g1.waves = g.waves ∧ g1.waveIndex = g.waveIndex ∧ g1.enemiesSpawned = g.enemiesSpawned := by
    intro g1 h
    subst h
    split <;> [split; skip] <;> exact ⟨rfl, rfl, rfl⟩
  unfold handleInput
  simp only
  split
  · rw [(hu _).1, (hu _).2.1, (hu _).2.2]
    exact hl _ rfl
  · exact hl _ rfl

theorem updateEnemies_scheduler (dt : R) (g g1 : game R) (h : updateEnemies dt g = some g1) :
    g1.waves = g.waves ∧ g1.waveIndex = g.waveIndex ∧ g1.enemiesSpawned = g.enemiesSpawned := by
  unfold updateEnemies at h
  split at h
  · exact absurd h (by simp)
  · injection h with h
    subst h
    exact ⟨rfl, rfl, rfl⟩

/-- In a reachable state the scheduler has spawned at most the count of the
    current wave, and nothing once all waves are cleared. -/
theorem Reachable.enemiesSpawned_le (g : game R) (h : Reachable g) :
    (∀ hw : g.waveIndex < g.waves.length, g.enemiesSpawned ≤ g.waves[g.waveIndex].count) ∧
    (g.waves.length ≤ g.waveIndex → g.enemiesSpawned = 0) := by
  have transport : ∀ a b : game R, b.waves = a.waves → b.waveIndex = a.waveIndex →
      b.enemiesSpawned = a.enemiesSpawned →
      ((∀ hw : a.waveIndex < a.waves.length, a.enemiesSpawned ≤ a.waves[a.waveIndex].count) ∧
        (a.waves.length ≤ a.waveIndex → a.enemiesSpawned = 0)) →
      ((∀ hw : b.waveIndex < b.waves.length, b.enemiesSpawned ≤ b.waves[b.waveIndex].count) ∧
        (b.waves.length ≤ b.waveIndex → b.enemiesSpawned = 0)) := by
    intro a b h1 h2 h3 hab
    cases a
    cases b
    simp only at h1 h2 h3
    subst h1 h2 h3
    exact hab
  induction h with
  | init g h =>
    simp only [newGame, computePathLengths, waypoints, List.length_cons, List.length_nil] at h
    simp only [Nat.reduceAdd, OfNat.ofNat_ne_zero, if_false, Option.some.injEq] at h
    subst h
    exact ⟨fun _ => Nat.zero_le _, fun _ => rfl⟩
  | request g pos left right _ ih =>
    obtain ⟨a, b, c⟩ := handleInput_scheduler pos left right g
    exact transport _ _ a b c ih
  | spawn g g1 dt _ hs ih => exact (spawnEnemies_scheduler dt g g1 hs ih.1 ih.2).2
  | enemies g g1 dt _ hs ih =>
    obtain ⟨a, b, c⟩ := updateEnemies_scheduler dt g g1 hs
    exact transport _ _ a b c ih
  | towers g dt cursor rnd _ ih => exact transport _ _ rfl rfl rfl ih
  | projectiles g dt _ ih => exact transport _ _ rfl rfl rfl ih
  | cleanup g _ ih => exact transport _ _ rfl rfl rfl ih

/-- C7. In a state with `waveIndex < len(waves)` in which `enemiesSpawned`
    has reached the count of the current wave, `spawnEnemies(dt)` appends no
    enemy; while the enemy list is non-empty it leaves the whole state
    unchanged, whatever `dt`; when the enemy list is empty it increases
    `waveIndex` by exactly 1 and resets `enemiesSpawned` and `spawnTimer` to 0.
    So `waveIndex` changes only when no enemy remains, and in a reachable
    state "has reached" means that `enemiesSpawned` equals the count. -/
theorem spawnEnemies_draining (g : game R) (dt : R) (hw : g.waveIndex < g.waves.length)
    (hs : g.waves[g.waveIndex].count ≤ g.enemiesSpawned) :
    (g.enemies ≠ [] → spawnEnemies dt g = some g) ∧
    (g.enemies = [] →
      spawnEnemies dt g =
        some { g with waveIndex := g.waveIndex + 1, enemiesSpawned := 0, spawnTimer := 0 }) ∧
    (∀ g1, spawnEnemies dt g = some g1 →
      g1.enemies = g.enemies ∧ (g1.waveIndex ≠ g.waveIndex → g.enemies = [])) ∧
    (Reachable g → g.enemiesSpawned = g.waves[g.waveIndex].count) := by
  have hne : g.enemies ≠ [] → spawnEnemies dt g = some g := by
    intro h
    unfold spawnEnemies
    simp only [hw, dite_true, ge_iff_le, hs, if_true, List.length_eq_zero, h, if_false]
  have hem : g.enemies = [] → spawnEnemies dt g =
      some { g with waveIndex := g.waveIndex + 1, enemiesSpawned := 0, spawnTimer := 0 } := by
    intro h
    unfold spawnEnemies
    simp only [hw, dite_true, ge_iff_le, hs, if_true, List.length_eq_zero, h]
  refine ⟨hne, hem, ?_, fun hr => le_antisymm ((Reachable.enemiesSpawned_le g hr).1 hw) hs⟩
  intro g1 h
  by_cases he : g.enemies = []
  · rw [hem he] at h
    injection h with h
    subst h
    exact ⟨rfl, fun _ => he⟩
  · rw [hne he] at h
    injection h with h
    subst h
    exact ⟨rfl, fun hc => absurd rfl hc⟩


/-- C7, worked example: wave with count 6.  After 6 spawns a call changes
    nothing while an enemy is left, and moves on to wave index 1 with the
    counters reset once the enemy list is empty. -/
theorem spawnEnemies_draining_witness :
    spawnEnemies (1 / 60) drainDemo = some drainDemo ∧
    spawnEnemies (1 / 60) drainedDemo =
      some { drainedDemo with waveIndex := 0 + 1, enemiesSpawned := 0, spawnTimer := 0 } :=
  ⟨(spawnEnemies_draining drainDemo (1 / 60) (by decide!) (by decide!)).1 (by decide!),
    (spawnEnemies_draining drainedDemo (1 / 60) (by decide!) (by decide!)).2.1 (by decide!)⟩

/-! ## Requests: placement and upgrade -/

/-- C8. A placement request (left click, no right click) at `P`: if
    `gold >= towerCost` (80) and `canPlaceTower(P)`, exactly one tower is
    appended at `P` with level 1, range 200, cooldown 0.55 and fireTimer 0,
    gold goes down by exactly 80 and nothing else changes; otherwise the state
    is unchanged. -/
theorem handleInput_place (g : game R) (P : vec2 R) :
    (80 ≤ g.gold ∧ canPlaceTower g P = true →
      handleInput P true false g =
        { g with
          towers := g.towers ++
            [{ pos := P, rangePx := 200, cooldown := 0.55, fireTimer := 0, level := 1,
               color := vibrantColor g.towers.length }]
          gold := g.gold - 80 }) ∧
    (¬ (80 ≤ g.gold ∧ canPlaceTower g P = true) → handleInput P true false g = g) := by
  have hc : ((towerCost : ℕ) : ℤ) = 80 := rfl
  unfold handleInput
  simp only [if_true, Bool.false_eq_true, if_false, ge_iff_le, hc]
  constructor
  · intro h
    rw [if_pos h]
    rfl
  · intro h
    rw [if_neg h]

/-- C8, worked example: on the start state (gold 180) a tower is placed at
    `demoSpot` and gold drops to 100. -/
theorem handleInput_place_witness :
    handleInput demoSpot true false startState =
      { startState with
        towers := startState.towers ++
          [{ pos := demoSpot, rangePx := 200, cooldown := 0.55, fireTimer := 0, level := 1,
             color := vibrantColor startState.towers.length }]
        gold := startState.gold - 80 } :=
  (handleInput_place startState demoSpot).1 (by decide!)

theorem closestLoop_spec (P : vec2 R) (ts : List (tower R)) :
    ∀ (pre : List (tower R)) (closest : Option ℕ) (best : R),
      ClosestSoFar P pre closest best →
      ∃ b, ClosestSoFar P (pre ++ ts) (closestLoop P ts pre.length closest best) b := by
  have hr : ((towerRadius : ℕ) : R) = 28 := by norm_num [towerRadius]
  induction ts with
  | nil =>
    intro pre closest best h
    exact ⟨best, by simpa [closestLoop] using h⟩
  | cons t ts ih =>
    intro pre closest best h
    have hlen : (pre ++ [t]).length = pre.length + 1 := by simp
    have happ : pre ++ t :: ts = (pre ++ [t]) ++ ts := by simp
    simp only [closestLoop, hr]
    rw [happ, ← hlen]
    by_cases hpick : distance P t.pos < 28 ∧ distance P t.pos < best
    · rw [if_pos hpick]
      apply ih (pre ++ [t]) (some pre.length) (distance P t.pos)
      refine ⟨t, by simp, hpick.1, rfl, ?_⟩
      intro i x hx
      rcases (getElem?_append_singleton pre t x i).mp hx with hx | ⟨hi, hx⟩
      · have hlt : distance P t.pos < distance P x.pos := by
          cases closest with
          | none => exact lt_of_lt_of_le hpick.1 (not_lt.mp (h.2 i x hx))
          | some j =>
            obtain ⟨c, _, _, _, h4⟩ := h
            exact lt_of_lt_of_le hpick.2 (h4 i x hx).1
        exact ⟨le_of_lt hlt, fun heq => absurd heq (ne_of_gt hlt)⟩
      · subst hx
        exact ⟨le_refl _, fun _ => by omega⟩
    · rw [if_neg hpick]
      apply ih (pre ++ [t]) closest best
      cases closest with
      | none =>
        obtain ⟨h1, h2⟩ := h
        refine ⟨h1, ?_⟩
        intro i x hx
        rcases (getElem?_append_singleton pre t x i).mp hx with hx | ⟨_, hx⟩
        · exact h2 i x hx
        · subst hx
          intro hd
          exact hpick ⟨hd, lt_of_lt_of_le hd h1⟩
      | some j =>
        obtain ⟨c, h1, h2, h3, h4⟩ := h
        refine ⟨c, (getElem?_append_singleton pre t c j).mpr (Or.inl h1), h2, h3, ?_⟩
        intro i x hx
        rcases (getElem?_append_singleton pre t x i).mp hx with hx | ⟨hi, hx⟩
        · exact h4 i x hx
        · subst hx
          have hj : j < pre.length := by
            by_contra hj
            rw [List.getElem?_eq_none (by omega)] at h1
            exact absurd h1 (by simp)
          refine ⟨?_, fun _ => by omega⟩
          by_contra hlt
          have hlt := not_le.mp hlt
          exact hpick ⟨lt_trans hlt (h3 ▸ h2), hlt⟩

theorem modify_eq_set {α : Type} (f : α → α) (l : List α) :
    ∀ (j : ℕ) (t : α), l[j]? = some t → l.modify f j = l.set j (f t) := by
  induction l with
  | nil => intro j t h; simp at h
  | cons a l ih =>
    intro j t h
    cases j with
    | zero =>
      simp only [List.getElem?_cons_zero, Option.some.injEq] at h
      subst h
      simp
    | succ j =>
      simp only [List.getElem?_cons_succ] at h
      simp [ih j t h]

/-- C9. `upgradeTower(P)`: if no tower is within the pick radius
    (`distance(P, t.pos) < towerRadius = 28`) or `gold < upgradeCost = 120`,
    the state is unchanged; if some tower is within the pick radius and
    `gold >= 120`, then the tower at the smallest distance from `P` (the
    first such tower in the list on a tie) gets `level+1`, `rangePx+24`,
    `cooldown*0.88` and the tint `upgradeColor(new level)`, gold goes down by
    exactly 120, and its position and fireTimer, every other tower and the
    rest of the state are unchanged. -/
theorem upgradeTower_spec (g : game R) (P : vec2 R) :
    ((∀ t ∈ g.towers, ¬ distance P t.pos < 28) → upgradeTower P g = g) ∧
    (g.gold < 120 → upgradeTower P g = g) ∧
    ((∃ t ∈ g.towers, distance P t.pos < 28) → 120 ≤ g.gold →
      ∃ (j : ℕ) (t : tower R), g.towers[j]? = some t ∧ distance P t.pos < 28 ∧
        (∀ (i : ℕ) (x : tower R), g.towers[i]? = some x →
          distance P t.pos ≤ distance P x.pos ∧
            (distance P x.pos = distance P t.pos → j ≤ i)) ∧
        upgradeTower P g =
          { g with
            gold := g.gold - 120
            towers := g.towers.set j
              { t with
                level := t.level + 1
                rangePx := t.rangePx + 24
                cooldown := t.cooldown * 0.88
                color := upgradeColor (t.level + 1) } }) := by
  have h0 : ClosestSoFar P [] none (9999 : R) := ⟨by norm_num, by simp⟩
  obtain ⟨b, hb⟩ := closestLoop_spec P g.towers [] none 9999 h0
  simp only [List.nil_append, List.length_nil] at hb
  have hc : ((upgradeCost : ℕ) : ℤ) = 120 := rfl
  refine ⟨?_, ?_, ?_⟩
  · intro hnone
    unfold upgradeTower
    cases hres : closestLoop P g.towers 0 none 9999 with
    | none => rfl
    | some j =>
      rw [hres] at hb
      obtain ⟨t, h1, h2, _, _⟩ := hb
      exact absurd h2 (hnone t (List.getElem?_mem h1))
  · intro hpoor
    unfold upgradeTower
    cases hres : closestLoop P g.towers 0 none 9999 with
    | none => rfl
    | some j =>
      simp only [hc, ge_iff_le]
      rw [if_neg (not_le.mpr hpoor)]
  · rintro ⟨t0, hmem, hnear⟩ hrich
    cases hres : closestLoop P g.towers 0 none 9999 with
    | none =>
      rw [hres] at hb
      obtain ⟨i, hi⟩ := List.getElem?_of_mem hmem
      exact absurd hnear (hb.2 i t0 hi)
    | some j =>
      rw [hres] at hb
      obtain ⟨t, h1, h2, h3, h4⟩ := hb
      refine ⟨j, t, h1, h2, fun i x hx => ?_, ?_⟩
      · rw [h3]
        exact h4 i x hx
      · unfold upgradeTower
        simp only [hres, hc, ge_iff_le]
        rw [if_pos hrich, modify_eq_set upgraded g.towers j t h1]
        rfl


/-- C9, worked example: a right click at `(610, 600)`, 10 away from the first
    tower of `upgradeDemo` and 90 away from the second, with gold 300. -/
theorem upgradeTower_spec_witness :
    ∃ (j : ℕ) (t : tower ℚ), upgradeDemo.towers[j]? = some t ∧
      distance (⟨610, 600⟩ : vec2 ℚ) t.pos < 28 ∧
      (∀ (i : ℕ) (x : tower ℚ), upgradeDemo.towers[i]? = some x →
        distance (⟨610, 600⟩ : vec2 ℚ) t.pos ≤ distance (⟨610, 600⟩ : vec2 ℚ) x.pos ∧
          (distance (⟨610, 600⟩ : vec2 ℚ) x.pos = distance (⟨610, 600⟩ : vec2 ℚ) t.pos → j ≤ i)) ∧
      upgradeTower ⟨610, 600⟩ upgradeDemo =
        { upgradeDemo with
          gold := upgradeDemo.gold - 120
          towers := upgradeDemo.towers.set j
            { t with
              level := t.level + 1
              rangePx := t.rangePx + 24
              cooldown := t.cooldown * 0.88
              color := upgradeColor (t.level + 1) } } :=
  (upgradeTower_spec upgradeDemo ⟨610, 600⟩).2.2 (by decide!) (by decide!)

/-! ## Path model -/

theorem foldl_add_eq_sum (l : List R) : ∀ a : R, l.foldl (fun acc seg => acc + seg) a = a + l.sum := by
  induction l with
  | nil => intro a; simp
  | cons x l ih =>
    intro a
    simp only [List.foldl_cons, List.sum_cons, ih]
    ring

theorem sum_pos_of_forall_pos (l : List R) (hne : l ≠ []) (hpos : ∀ x ∈ l, 0 < x) :
    0 < l.sum := by
  induction l with
  | nil => exact absurd rfl hne
  | cons x l ih =>
    have hx := hpos x (List.mem_cons_self _ _)
    rw [List.sum_cons]
    cases l with
    | nil => simpa using hx
    | cons y l =>
      have := ih (by simp) (fun z hz => hpos z (List.mem_cons_of_mem _ hz))
      linarith

theorem vec2_lerp_one (p q : vec2 R) :
    (⟨p.X + (q.X - p.X) * 1, p.Y + (q.Y - p.Y) * 1⟩ : vec2 R) = q := by
  cases q
  simp

theorem vec2_lerp_zero (p q : vec2 R) :
    (⟨p.X + (q.X - p.X) * 0, p.Y + (q.Y - p.Y) * 0⟩ : vec2 R) = p := by
  cases p
  simp

theorem positionAlongPathLoop_boundary (path : List (vec2 R)) (lens : List R) :
    ∀ (i m : ℕ), 1 ≤ m → m ≤ lens.length → (∀ x ∈ lens, 0 < x) →
      i + lens.length + 1 = path.length →
      positionAlongPathLoop path i (lens.take m).sum lens = path[i + m]? := by
  induction lens with
  | nil => intro i m h1 h2; simp at h2; omega
  | cons segLen lens ih =>
    intro i m h1 h2 hpos hlen
    simp only [List.length_cons] at h2 hlen
    have hseg : 0 < segLen := hpos segLen (List.mem_cons_self _ _)
    have hrest : ∀ x ∈ lens, 0 < x := fun x hx => hpos x (List.mem_cons_of_mem _ hx)
    obtain ⟨n, rfl⟩ : ∃ n, m = n + 1 := ⟨m - 1, by omega⟩
    simp only [List.take_succ_cons, List.sum_cons, positionAlongPathLoop]
    cases n with
    | zero =>
      have hi1 : i < path.length := by omega
      have hi2 : i + 1 < path.length := by omega
      simp only [List.take_zero, List.sum_nil, add_zero, le_refl, if_true,
        List.getElem?_eq_getElem hi1, List.getElem?_eq_getElem hi2, div_self (ne_of_gt hseg),
        vec2_lerp_one]
    | succ n =>
      have htake : (lens.take (n + 1)) ≠ [] := by
        intro h
        have := congrArg List.length h
        simp only [List.length_take, List.length_nil] at this
        omega
      have hsum : 0 < (lens.take (n + 1)).sum :=
        sum_pos_of_forall_pos _ htake (fun x hx => hrest x (List.mem_of_mem_take hx))
      rw [if_neg (by linarith), add_sub_cancel_left, ih (i + 1) (n + 1) (by omega) (by omega) hrest
        (by omega)]
      congr 1
      omega

/-- Segment boundaries in exact arithmetic.  For a path with at least two
    waypoints whose segments all have positive length (lengths as
    `computePathLengths` computes them) and every waypoint index `k`: without
    rounding, `positionAlongPath` at the cumulative length of the first `k`
    segments (arclength 0 for `k = 0`) is `path[k]`.  What binary64 makes of
    this is settled in the section on segment boundaries in binary64. -/
theorem positionAlongPath_boundary (g : game R) (k : ℕ) (hlen : 2 ≤ g.path.length)
    (hc : computePathLengths g = some g) (hpos : ∀ x ∈ g.pathLengths, 0 < x)
    (hk : k < g.path.length) :
    positionAlongPath g (g.pathLengths.take k).sum = some g.path[k] := by
  unfold computePathLengths at hc
  have hne : ¬ g.path.length = 0 := by omega
  rw [if_neg hne] at hc
  injection hc with hc
  have hL : g.pathLengths = segmentLengths g.path := by rw [← hc]
  have hlen2 : g.pathLengths.length = g.path.length - 1 := by
    rw [hL, segmentLengths_length]
  unfold positionAlongPath
  cases k with
  | zero =>
    cases hl : g.pathLengths with
    | nil => rw [hl] at hlen2; simp at hlen2; omega
    | cons segLen lens =>
      have hseg : 0 < segLen := hpos segLen (by rw [hl]; exact List.mem_cons_self _ _)
      have h1 : 0 < g.path.length := by omega
      have h2 : 0 + 1 < g.path.length := by omega
      simp only [List.take_zero, List.sum_nil, positionAlongPathLoop, le_of_lt hseg, if_true,
        List.getElem?_eq_getElem h1, List.getElem?_eq_getElem h2, zero_div, vec2_lerp_zero]
  | succ n =>
    rw [positionAlongPathLoop_boundary g.path g.pathLengths 0 (n + 1) (by omega) (by omega) hpos
      (by omega)]
    simp only [zero_add]
    exact List.getElem?_eq_getElem hk

/-- Segment boundaries in exact arithmetic, worked example: on the path of
    `newGame` the cumulative length of the first three segments
    (200 + 160 + 180) is mapped to waypoint 3. -/
theorem positionAlongPath_boundary_witness :
    positionAlongPath startState (startState.pathLengths.take 3).sum = some ⟨260, 340⟩ :=
  positionAlongPath_boundary startState 3 (by decide!) (by decide!) (by decide!) (by decide!)

theorem positionAlongPathLoop_of_divisor_none (path : List (vec2 R)) (lens : List R) :
    ∀ (i : ℕ) (remaining : R), positionAlongPathDivisorLoop remaining lens = none →
      positionAlongPathLoop path i remaining lens = path.getLast? := by
  induction lens with
  | nil => intro i remaining _; rfl
  | cons segLen lens ih =>
    intro i remaining h
    simp only [positionAlongPathDivisorLoop] at h
    simp only [positionAlongPathLoop]
    split at h
    · exact absurd h (by simp)
    · rename_i hgt
      rw [if_neg hgt]
      exact ih (i + 1) _ h

theorem positionAlongPathDivisorLoop_pos (lens : List R) :
    ∀ (remaining d : R), 0 < remaining → positionAlongPathDivisorLoop remaining lens = some d →
      0 < d := by
  induction lens with
  | nil => intro remaining d _ h; simp [positionAlongPathDivisorLoop] at h
  | cons segLen lens ih =>
    intro remaining d hpos h
    simp only [positionAlongPathDivisorLoop] at h
    split at h
    · rename_i hle
      injection h with h
      subst h
      exact lt_of_lt_of_le hpos hle
    · rename_i hgt
      exact ih (remaining - segLen) d (by linarith [not_le.mp hgt]) h

/-- For a strictly positive arclength `positionAlongPath` never divides by
    zero, whatever the segment lengths. -/
theorem positionAlongPathDivisor_pos (g : game R) (a d : R) (ha : 0 < a)
    (h : positionAlongPathDivisor g a = some d) : 0 < d :=
  positionAlongPathDivisorLoop_pos g.pathLengths a d ha h

/-- C12, at the failing input: on the path `[(5,5), (5,5)]`
    (`computePathLengths` gives lengths `[0]`, total length 0) the arclength
    `0 >= totalLength` makes `positionAlongPath` evaluate `0 / 0` in the first
    segment instead of returning the last waypoint (NaN in `float64`). -/
theorem positionAlongPath_clamp_divides_by_zero :
    computePathLengths pointDemo = some pointDemo ∧ pointDemo.totalLength ≤ 0 ∧
      positionAlongPathDivisor pointDemo 0 = some 0 := by
  decide!

/-- C13, counterexample: on the lane `[(0,0), (100,0)]` the arclength `-50`
    gives `(-50, 0)`, not the first waypoint `(0, 0)`. -/
theorem positionAlongPath_negative_counterexample :
    laneDemo.path[0]? = some ⟨0, 0⟩ ∧ (-50 : ℚ) ≤ 0 ∧
      positionAlongPath laneDemo (-50) = some ⟨-50, 0⟩ ∧
      positionAlongPath laneDemo (-50) ≠ laneDemo.path[0]? := by
  decide!

/-- C13, amended. For a path with at least two waypoints whose first segment
    has positive stored length `len0`, and `a <= 0`: `positionAlongPath(a)` is
    `path[0] + (a / len0) * (path[1] - path[0])`; for `a = 0` this is the first
    waypoint, for `a < 0` there is no clamp and the result lies before the first
    waypoint on the line of the first segment. -/
theorem positionAlongPath_nonpos (g : game R) (a len0 : R) (p0 p1 : vec2 R)
    (h0 : g.path[0]? = some p0) (h1 : g.path[1]? = some p1)
    (hl : g.pathLengths[0]? = some len0) (hpos : 0 < len0) (ha : a ≤ 0) :
    positionAlongPath g a =
        some ⟨p0.X + (a / len0) * (p1.X - p0.X), p0.Y + (a / len0) * (p1.Y - p0.Y)⟩ ∧
      (a = 0 → positionAlongPath g a = some p0) ∧
      (a < 0 → a / len0 < 0) := by
  have hres : positionAlongPath g a =
      some ⟨p0.X + (a / len0) * (p1.X - p0.X), p0.Y + (a / len0) * (p1.Y - p0.Y)⟩ := by
    unfold positionAlongPath
    cases hlens : g.pathLengths with
    | nil => rw [hlens] at hl; simp at hl
    | cons segLen lens =>
      rw [hlens] at hl
      simp only [List.getElem?_cons_zero, Option.some.injEq] at hl
      subst hl
      simp only [positionAlongPathLoop, le_trans ha (le_of_lt hpos), if_true, h0, zero_add, h1,
        mul_comm]
  refine ⟨hres, ?_, fun hneg => div_neg_of_neg_of_pos hneg hpos⟩
  intro hz
  rw [hres, hz]
  cases p0
  simp

/-- C13 amended, worked example: the lane `[(0,0), (100,0)]` at arclength
    `-50`. -/
theorem positionAlongPath_nonpos_witness :
    positionAlongPath laneDemo (-50) =
        some ⟨0 + (-50 / 100) * (100 - 0), 0 + (-50 / 100) * (0 - 0)⟩ ∧
      ((-50 : ℚ) = 0 → positionAlongPath laneDemo (-50) = some ⟨0, 0⟩) ∧
      ((-50 : ℚ) < 0 → (-50 : ℚ) / 100 < 0) :=
  positionAlongPath_nonpos laneDemo (-50) 100 ⟨0, 0⟩ ⟨100, 0⟩ (by decide!) (by decide!)
    (by decide!) (by decide!) (by decide!)

/-- C14, at the failing input: on the path `[(0,0), (0,0), (100,0)]`, whose
    first segment has length zero (`computePathLengths` gives `[0, 100]`), the
    arclength `0` makes `positionAlongPath` evaluate `remaining / segLen` with
    `segLen = 0`. -/
theorem positionAlongPath_divides_by_zero :
    computePathLengths zeroFirstDemo = some zeroFirstDemo ∧ (0 : ℚ) ≤ 0 ∧
      positionAlongPathDivisor zeroFirstDemo 0 = some 0 := by
  decide!

/-! ## Firing -/

/-- What `spawnEnemies` leaves alone, and what it does to the enemy list. -/
theorem spawnEnemies_frame (dt : R) (g g1 : game R) (h : spawnEnemies dt g = some g1) :
    g1.towers = g.towers ∧ g1.projectiles = g.projectiles ∧
    ((g1.enemies = g.enemies ∧ g1.nextEnemyID = g.nextEnemyID) ∨
      ∃ e, e.id = g.nextEnemyID ∧ g1.enemies = g.enemies ++ [e] ∧
        g1.nextEnemyID = g.nextEnemyID + 1) := by
  unfold spawnEnemies at h
  split at h
  · simp only at h
    split at h
    · split at h <;> (injection h with h; subst h; exact ⟨rfl, rfl, Or.inl ⟨rfl, rfl⟩⟩)
    · split at h
      · split at h
        · exact absurd h (by simp)
        · injection h with h
          subst h
          exact ⟨rfl, rfl, Or.inr ⟨_, rfl, rfl, rfl⟩⟩
      · injection h with h
        subst h
        exact ⟨rfl, rfl, Or.inl ⟨rfl, rfl⟩⟩
  · injection h with h
    subst h
    exact ⟨rfl, rfl, Or.inl ⟨rfl, rfl⟩⟩

theorem updateEnemy_id (g : game R) (dt : R) (lives : ℤ) (e e1 : enemy R) (l1 : ℤ)
    (h : updateEnemy g dt lives e = some (e1, l1)) : e1.id = e.id := by
  unfold updateEnemy at h
  split at h
  · injection h with h
    injection h with h1 h2
    subst h1
    rfl
  · simp only at h
    split at h
    · injection h with h
      injection h with h1 h2
      subst h1
      rfl
    · split at h
      · exact absurd h (by simp)
      · injection h with h
        injection h with h1 h2
        subst h1
        rfl

theorem updateEnemiesLoop_ids (g : game R) (dt : R) (es : List (enemy R)) :
    ∀ (lives : ℤ) (es1 : List (enemy R)) (l1 : ℤ),
      updateEnemiesLoop g dt lives es = some (es1, l1) →
      es1.map (fun e => e.id) = es.map (fun e => e.id) := by
  induction es with
  | nil =>
    intro lives es1 l1 h
    simp only [updateEnemiesLoop] at h
    injection h with h
    injection h with h1 h2
    subst h1
    rfl
  | cons e es ih =>
    intro lives es1 l1 h
    simp only [updateEnemiesLoop] at h
    split at h
    · exact absurd h (by simp)
    · rename_i e1 lives1 hstep
      split at h
      · exact absurd h (by simp)
      · rename_i es2 lives2 hrest
        injection h with h
        injection h with h1 h2
        subst h1
        simp only [List.map_cons, updateEnemy_id g dt lives e e1 lives1 hstep,
          ih lives1 es2 lives2 hrest]

/-- What `updateEnemies` leaves alone. -/
theorem updateEnemies_frame (dt : R) (g g1 : game R) (h : updateEnemies dt g = some g1) :
    g1.towers = g.towers ∧ g1.projectiles = g.projectiles ∧
    g1.nextEnemyID = g.nextEnemyID ∧
    g1.enemies.map (fun e => e.id) = g.enemies.map (fun e => e.id) := by
  unfold updateEnemies at h
  split at h
  · exact absurd h (by simp)
  · rename_i es lives hloop
    injection h with h
    subst h
    exact ⟨rfl, rfl, rfl, updateEnemiesLoop_ids g dt g.enemies g.lives es lives hloop⟩

theorem newGame_empty (g : game R) (h : newGame = some g) :
    g.towers = [] ∧ g.enemies = [] ∧ g.projectiles = [] ∧ g.nextEnemyID = 0 := by
  simp only [newGame, computePathLengths, waypoints, List.length_cons, List.length_nil] at h
  simp only [Nat.reduceAdd, OfNat.ofNat_ne_zero, if_false, Option.some.injEq] at h
  subst h
  exact ⟨rfl, rfl, rfl, rfl⟩

/-! ## Tower timers -/

theorem TimerOk.upgraded (t : tower R) (h : TimerOk t) : TimerOk (upgraded t) := by
  obtain ⟨h1, h2, h3⟩ := h
  refine ⟨h1, ?_, ?_⟩
  · show t.cooldown * 0.88 = 0.55 * 0.88 ^ (t.level + 1 - 1)
    rw [h2]
    obtain ⟨n, hn⟩ : ∃ n, t.level = n + 1 := ⟨t.level - 1, by omega⟩
    rw [hn]
    simp only [Nat.add_sub_cancel]
    ring
  · show 1 ≤ t.level + 1
    omega

theorem handleInput_enemies (pos : vec2 R) (left right : Bool) (g : game R) :
    (handleInput pos left right g).enemies = g.enemies ∧
    (handleInput pos left right g).nextEnemyID = g.nextEnemyID := by
  have hu : ∀ g1 : game R, (upgradeTower pos g1).enemies = g1.enemies ∧
      (upgradeTower pos g1).nextEnemyID = g1.nextEnemyID := by
    intro g1
    unfold upgradeTower
    split
    · exact ⟨rfl, rfl⟩
    · split <;> exact ⟨rfl, rfl⟩
  have hl : ∀ g1 : game R, g1 = (if left = true then
      if g.gold ≥ (towerCost : ℤ) ∧ canPlaceTower g pos = true then
        { placeTower pos g with gold := (placeTower pos g).gold - (towerCost : ℤ) }
      else g else g) → g1.enemies = g.enemies ∧ g1.nextEnemyID = g.nextEnemyID := by
    intro g1 h
    subst h
    split <;> [split; skip] <;> exact ⟨rfl, rfl⟩
  unfold handleInput
  simp only
  split
  · rw [(hu _).1, (hu _).2]
    exact hl _ rfl
  · exact hl _ rfl

theorem hitLoop_ids (p : projectile R) (es : List (enemy R)) (gold score : ℤ) :
    (hitLoop p es gold score).1.map (fun e => e.id) = es.map (fun e => e.id) := by
  induction es with
  | nil => rfl
  | cons e es ih =>
    simp only [hitLoop]
    split
    · simp only [List.map_cons, ih]
    · split
      · split <;> rfl
      · simp only [List.map_cons, ih]

theorem updateProjectilesLoop_ids (dt : R) (ps : List (projectile R)) :
    ∀ (es : List (enemy R)) (gold score : ℤ),
      (updateProjectilesLoop dt ps es gold score).2.1.map (fun e => e.id) =
        es.map (fun e => e.id) := by
  induction ps with
  | nil => intro es gold score; rfl
  | cons p ps ih =>
    intro es gold score
    simp only [updateProjectilesLoop]
    split
    · exact ih es gold score
    · rw [ih, hitLoop_ids]

theorem Reachable.idsOk (g : game R) (h : Reachable g) : IdsOk g := by
  induction h with
  | init g h =>
    obtain ⟨_, he, _, _⟩ := newGame_empty g h
    unfold IdsOk
    rw [he]
    simp
  | request g pos left right _ ih =>
    obtain ⟨a, b⟩ := handleInput_enemies pos left right g
    unfold IdsOk at ih ⊢
    rw [a, b]
    exact ih
  | spawn g g1 dt _ hs ih =>
    obtain ⟨_, _, hcase⟩ := spawnEnemies_frame dt g g1 hs
    unfold IdsOk at ih ⊢
    rcases hcase with ⟨a, b⟩ | ⟨e, he, a, b⟩
    · rw [a, b]
      exact ih
    · rw [a, b, List.map_append, List.map_singleton, he]
      refine ⟨List.pairwise_append.mpr ⟨ih.1, by simp, ?_⟩, ?_⟩
      · intro x hx y hy
        simp only [List.mem_singleton] at hy
        subst hy
        exact ih.2 x hx
      · intro x hx
        rcases List.mem_append.mp hx with hx | hx
        · exact Nat.lt_succ_of_lt (ih.2 x hx)
        · simp only [List.mem_singleton] at hx
          subst hx
          exact Nat.lt_succ_self _
  | enemies g g1 dt _ hs ih =>
    obtain ⟨_, _, a, b⟩ := updateEnemies_frame dt g g1 hs
    unfold IdsOk at ih ⊢
    rw [a, b]
    exact ih
  | towers g dt cursor rnd _ ih => exact ih
  | projectiles g dt _ ih =>
    unfold IdsOk at ih ⊢
    have : (updateProjectiles dt g).enemies.map (fun e => e.id) = g.enemies.map (fun e => e.id) :=
      updateProjectilesLoop_ids dt g.projectiles g.enemies g.gold g.score
    rw [this]
    exact ih
  | cleanup g _ ih =>
    unfold IdsOk at ih ⊢
    have hsub : List.Sublist ((TowerDefense.cleanup g).enemies.map (fun e => e.id))
        (g.enemies.map (fun e => e.id)) :=
      List.Sublist.map _ (List.filter_sublist _)
    exact ⟨List.Pairwise.sublist hsub ih.1, fun x hx => ih.2 x (hsub.subset hx)⟩

/-- C17. In every state reachable from `newGame` by requests and tick phases
    the ids of the enemies in the list are strictly increasing in list order,
    hence pairwise distinct, and every id is below `nextEnemyID`; so the
    `targetID` of a projectile matches at most one enemy of the list. -/
theorem enemy_ids_increasing (g : game R) (h : Reachable g) :
    (∀ (i j : ℕ) (a b : enemy R), g.enemies[i]? = some a → g.enemies[j]? = some b →
      i < j → a.id < b.id) ∧
    (∀ (i j : ℕ) (a b : enemy R), g.enemies[i]? = some a → g.enemies[j]? = some b →
      i ≠ j → a.id ≠ b.id) ∧
    (∀ e ∈ g.enemies, e.id < g.nextEnemyID) ∧
    (∀ (p : projectile R) (i j : ℕ) (a b : enemy R), g.enemies[i]? = some a →
      g.enemies[j]? = some b → a.id = p.targetID → b.id = p.targetID → i = j) := by
  obtain ⟨hpair, hlt⟩ := Reachable.idsOk g h
  rw [List.pairwise_map] at hpair
  have hinc : ∀ (i j : ℕ) (a b : enemy R), g.enemies[i]? = some a → g.enemies[j]? = some b →
      i < j → a.id < b.id := by
    intro i j a b ha hb hij
    obtain ⟨hi, rfl⟩ := List.getElem?_eq_some.mp ha
    obtain ⟨hj, rfl⟩ := List.getElem?_eq_some.mp hb
    exact List.pairwise_iff_getElem.mp hpair i j hi hj hij
  have hne : ∀ (i j : ℕ) (a b : enemy R), g.enemies[i]? = some a → g.enemies[j]? = some b →
      i ≠ j → a.id ≠ b.id := by
    intro i j a b ha hb hij
    rcases Nat.lt_or_gt_of_ne hij with hlt | hgt
    · exact ne_of_lt (hinc i j a b ha hb hlt)
    · exact ne_of_gt (hinc j i b a hb ha hgt)
  refine ⟨hinc, hne, fun e he => hlt e.id (List.mem_map_of_mem _ he), ?_⟩
  intro p i j a b ha hb hai hbi
  by_contra hij
  exact hne i j a b ha hb hij (hai.trans hbi.symm)


/-- C17, worked example: after two spawns the list holds the ids 0 and 1 and
    `nextEnemyID` is 2. -/
theorem enemy_ids_increasing_witness :
    (∀ (i j : ℕ) (a b : enemy ℚ), spawnedTwice.enemies[i]? = some a →
      spawnedTwice.enemies[j]? = some b → i < j → a.id < b.id) ∧
    (∀ (i j : ℕ) (a b : enemy ℚ), spawnedTwice.enemies[i]? = some a →
      spawnedTwice.enemies[j]? = some b → i ≠ j → a.id ≠ b.id) ∧
    (∀ e ∈ spawnedTwice.enemies, e.id < spawnedTwice.nextEnemyID) ∧
    (∀ (p : projectile ℚ) (i j : ℕ) (a b : enemy ℚ), spawnedTwice.enemies[i]? = some a →
      spawnedTwice.enemies[j]? = some b → a.id = p.targetID → b.id = p.targetID → i = j) :=
  enemy_ids_increasing spawnedTwice
    (Reachable.spawn spawnedOnce spawnedTwice 1
      (Reachable.spawn startState spawnedOnce 1 (Reachable.init startState (by decide!))
        (by decide!))
      (by decide!))

/-! ## Tower positions -/

theorem modify_upgraded_pos (l : List (tower R)) :
    ∀ i : ℕ, (l.modify upgraded i).map (fun t => t.pos) = l.map (fun t => t.pos) := by
  induction l with
  | nil => intro i; simp
  | cons a l ih =>
    intro i
    cases i with
    | zero => simp [upgraded]
    | succ i => simp [ih i]

theorem upgradeTower_pos (pos : vec2 R) (g : game R) :
    (upgradeTower pos g).towers.map (fun t => t.pos) = g.towers.map (fun t => t.pos) := by
  unfold upgradeTower
  split
  · rfl
  · split
    · exact modify_upgraded_pos g.towers _
    · rfl

/-- A request keeps the tower positions, or appends the requested position,
    which then passed `canPlaceTower`. -/
theorem handleInput_pos (pos : vec2 R) (left right : Bool) (g : game R) :
    (handleInput pos left right g).towers.map (fun t => t.pos) = g.towers.map (fun t => t.pos) ∨
    (canPlaceTower g pos = true ∧
      (handleInput pos left right g).towers.map (fun t => t.pos) =
        g.towers.map (fun t => t.pos) ++ [pos]) := by
  have hl : ∀ g1 : game R, g1 = (if left = true then
      if g.gold ≥ (towerCost : ℤ) ∧ canPlaceTower g pos = true then
        { placeTower pos g with gold := (placeTower pos g).gold - (towerCost : ℤ) }
      else g else g) →
      g1.towers.map (fun t => t.pos) = g.towers.map (fun t => t.pos) ∨
      (canPlaceTower g pos = true ∧
        g1.towers.map (fun t => t.pos) = g.towers.map (fun t => t.pos) ++ [pos]) := by
    intro g1 h
    subst h
    split
    · split
      · rename_i hc
        exact Or.inr ⟨hc.2, by simp [placeTower]⟩
      · exact Or.inl rfl
    · exact Or.inl rfl
  unfold handleInput
  simp only
  split
  · rw [upgradeTower_pos]
    exact hl _ rfl
  · exact hl _ rfl

theorem updateTowersLoop_pos (g : game R) (dt : R) (rnd : ℕ → R) (ts : List (tower R)) :
    ∀ (ps : List (projectile R)) (k : ℕ),
      (updateTowersLoop g dt rnd ts ps k).1.map (fun t => t.pos) = ts.map (fun t => t.pos) := by
  induction ts with
  | nil => intro ps k; rfl
  | cons a ts ih =>
    intro ps k
    simp only [updateTowersLoop]
    split
    · simp only [List.map_cons, ih]
    · split
      · simp only [List.map_cons, ih]
      · split
        · simp only [List.map_cons, ih]
        · simp only [List.map_cons, ih]

/-- No step moves or removes a tower: the list of tower positions only grows
    at its end. -/
theorem Step.towers_pos (g g1 : game R) (h : Step g g1) :
    ∃ extra, g1.towers.map (fun t => t.pos) = g.towers.map (fun t => t.pos) ++ extra := by
  rcases h with ⟨pos, left, right⟩ | ⟨_, dt, hs⟩ | ⟨_, dt, hs⟩ | ⟨dt, cursor, rnd⟩ | ⟨dt⟩ | _
  · rcases handleInput_pos pos left right g with h | ⟨_, h⟩
    · exact ⟨[], by rw [h, List.append_nil]⟩
    · exact ⟨[pos], h⟩
  · exact ⟨[], by rw [(spawnEnemies_frame _ g g1 hs).1, List.append_nil]⟩
  · exact ⟨[], by rw [(updateEnemies_frame _ g g1 hs).1, List.append_nil]⟩
  · refine ⟨[], ?_⟩
    rw [List.append_nil]
    exact updateTowersLoop_pos _ dt rnd g.towers g.projectiles 0
  · exact ⟨[], by rw [List.append_nil]; rfl⟩
  · exact ⟨[], by rw [List.append_nil]; rfl⟩

/-- A legal place is at least `58.8` away from every existing tower. -/
theorem canPlaceTower_towers_far (g : game R) (P : vec2 R) (h : canPlaceTower g P = true) :
    ∀ t ∈ g.towers, (58.8 : R) ≤ distance P t.pos := by
  apply (tooCloseToTower_eq_false P g.towers).mp
  unfold canPlaceTower at h
  split at h
  · exact absurd h (by simp)
  · split at h
    · exact absurd h (by simp)
    · split at h
      · exact absurd h (by simp)
      · rename_i hfar
        simpa using hfar

theorem Reachable.towers_apart (g : game R) (h : Reachable g) :
    (g.towers.map (fun t => t.pos)).Pairwise (fun a b => (58.8 : R) ≤ distance b a) := by
  induction h with
  | init g h =>
    rw [(newGame_empty g h).1]
    simp
  | request g pos left right _ ih =>
    rcases handleInput_pos pos left right g with h | ⟨hc, h⟩
    · rw [h]
      exact ih
    · rw [h]
      refine List.pairwise_append.mpr ⟨ih, by simp, ?_⟩
      intro a ha b hb
      simp only [List.mem_singleton] at hb
      subst hb
      obtain ⟨t, ht, rfl⟩ := List.mem_map.mp ha
      exact canPlaceTower_towers_far g b hc t ht
  | spawn g g1 dt _ hs ih =>
    rw [(spawnEnemies_frame dt g g1 hs).1]
    exact ih
  | enemies g g1 dt _ hs ih =>
    rw [(updateEnemies_frame dt g g1 hs).1]
    exact ih
  | towers g dt cursor rnd _ ih =>
    have : (updateTowers dt cursor rnd g).towers.map (fun t => t.pos) =
        g.towers.map (fun t => t.pos) := updateTowersLoop_pos _ dt rnd g.towers g.projectiles 0
    rw [this]
    exact ih
  | projectiles g dt _ ih => exact ih
  | cleanup g _ ih => exact ih

/-- C18. With `math.Hypot` even in both arguments: in every state reachable
    from `newGame` by placement requests, upgrade requests and tick phases,
    any two distinct towers of the list have centres at distance at least
    `2.1 * towerRadius = 58.8` from each other; and no step moves or removes a
    tower (the list of tower positions only grows at its end). -/
theorem towers_never_overlap (hsym : ∀ x y : R, Hypot.hypot (-x) (-y) = Hypot.hypot x y)
    (g : game R) (h : Reachable g) :
    (∀ (i j : ℕ) (a b : tower R), g.towers[i]? = some a → g.towers[j]? = some b → i ≠ j →
      (58.8 : R) ≤ distance a.pos b.pos) ∧
    (∀ g1 : game R, Step g g1 →
      ∃ extra, g1.towers.map (fun t => t.pos) = g.towers.map (fun t => t.pos) ++ extra) := by
  have hswap : ∀ p q : vec2 R, distance p q = distance q p := by
    intro p q
    unfold distance
    rw [← hsym (p.X - q.X) (p.Y - q.Y), neg_sub, neg_sub]
  have hpair := Reachable.towers_apart g h
  rw [List.pairwise_map] at hpair
  have hlater : ∀ (i j : ℕ) (a b : tower R), g.towers[i]? = some a → g.towers[j]? = some b →
      i < j → (58.8 : R) ≤ distance b.pos a.pos := by
    intro i j a b ha hb hij
    obtain ⟨hi, rfl⟩ := List.getElem?_eq_some.mp ha
    obtain ⟨hj, rfl⟩ := List.getElem?_eq_some.mp hb
    exact List.pairwise_iff_getElem.mp hpair i j hi hj hij
  refine ⟨?_, fun g1 hs => Step.towers_pos g g1 hs⟩
  intro i j a b ha hb hij
  rcases Nat.lt_or_gt_of_ne hij with hlt | hgt
  · rw [hswap]
    exact hlater i j a b ha hb hlt
  · exact hlater j i b a hb ha hgt

/-- The rational `hypot` is even in both arguments. -/
theorem ratHypot_neg (x y : ℚ) : ratHypot (-x) (-y) = ratHypot x y := by
  unfold ratHypot
  simp only [neg_mul_neg]

/-- C18, worked example: two towers bought on the start state, at
    `(600, 600)` and `(700, 600)`. -/
theorem towers_never_overlap_witness :
    twoTowers.towers.map (fun t => t.pos) = [⟨600, 600⟩, ⟨700, 600⟩] ∧
    (∀ (i j : ℕ) (a b : tower ℚ), twoTowers.towers[i]? = some a →
      twoTowers.towers[j]? = some b → i ≠ j → (58.8 : ℚ) ≤ distance a.pos b.pos) ∧
    (∀ g1 : game ℚ, Step twoTowers g1 →
      ∃ extra, g1.towers.map (fun t => t.pos) =
        twoTowers.towers.map (fun t => t.pos) ++ extra) :=
  ⟨by decide!,
    towers_never_overlap ratHypot_neg twoTowers
      (Reachable.request _ _ _ _ (Reachable.request _ _ _ _
        (Reachable.init startState (by decide!))))⟩

/-! ## Distance from a point to a segment -/

/-- With the laws of `math.Hypot` in exact arithmetic, `hypot` is monotone in
    the sum of the squares. -/
theorem hypot_le_hypot (hnn : ∀ x y : R, 0 ≤ Hypot.hypot x y)
    (hsq : ∀ x y : R, Hypot.hypot x y * Hypot.hypot x y = x * x + y * y) (x y u v : R)
    (h : x * x + y * y ≤ u * u + v * v) : Hypot.hypot x y ≤ Hypot.hypot u v := by
  apply (mul_self_le_mul_self_iff (hnn x y) (hnn u v)).mpr
  rw [hsq, hsq]
  exact h

theorem sq_sum_eq_zero (x y : R) (h : x * x + y * y = 0) : x = 0 ∧ y = 0 := by
  have hx : 0 ≤ x * x := mul_self_nonneg x
  have hy : 0 ≤ y * y := mul_self_nonneg y
  exact ⟨mul_self_eq_zero.mp (by linarith), mul_self_eq_zero.mp (by linarith)⟩

/-- The clamped projection parameter minimises the squared distance on
    `[0, 1]`. -/
theorem clamp_minimises (ux uy vx vy t : R) (hL : 0 < vx * vx + vy * vy) (h0 : 0 ≤ t)
    (h1 : t ≤ 1) :
    (ux - vx * max 0 (min 1 ((ux * vx + uy * vy) / (vx * vx + vy * vy)))) *
        (ux - vx * max 0 (min 1 ((ux * vx + uy * vy) / (vx * vx + vy * vy)))) +
      (uy - vy * max 0 (min 1 ((ux * vx + uy * vy) / (vx * vx + vy * vy)))) *
        (uy - vy * max 0 (min 1 ((ux * vx + uy * vy) / (vx * vx + vy * vy)))) ≤
    (ux - vx * t) * (ux - vx * t) + (uy - vy * t) * (uy - vy * t) := by
  have hc : ux * vx + uy * vy =
      (ux * vx + uy * vy) / (vx * vx + vy * vy) * (vx * vx + vy * vy) :=
    (div_mul_cancel₀ _ (ne_of_gt hL)).symm
  generalize (ux * vx + uy * vy) / (vx * vx + vy * vy) = s at hc
  generalize hLdef : vx * vx + vy * vy = L at hc hL
  have hdiff : ∀ t0 : R,
      (ux - vx * t) * (ux - vx * t) + (uy - vy * t) * (uy - vy * t) -
        ((ux - vx * t0) * (ux - vx * t0) + (uy - vy * t0) * (uy - vy * t0)) =
      L * ((t - t0) * (t + t0 - 2 * s)) := by
    intro t0
    have : (ux - vx * t) * (ux - vx * t) + (uy - vy * t) * (uy - vy * t) -
        ((ux - vx * t0) * (ux - vx * t0) + (uy - vy * t0) * (uy - vy * t0)) =
        (t - t0) * ((t + t0) * (vx * vx + vy * vy) - 2 * (ux * vx + uy * vy)) := by ring
    rw [this, hLdef, hc]
    ring
  have hsign : 0 ≤ (t - max 0 (min 1 s)) * (t + max 0 (min 1 s) - 2 * s) := by
    rcases le_total s 0 with hs | hs
    · have : max 0 (min 1 s) = 0 := by
        rw [min_eq_right (by linarith), max_eq_left hs]
      rw [this]
      nlinarith
    · rcases le_total s 1 with hs1 | hs1
      · have : max 0 (min 1 s) = s := by
          rw [min_eq_right hs1, max_eq_right hs]
        rw [this]
        nlinarith [mul_self_nonneg (t - s)]
      · have : max 0 (min 1 s) = 1 := by
          rw [min_eq_left hs1, max_eq_right (by norm_num)]
        rw [this]
        nlinarith
  have := hdiff (max 0 (min 1 s))
  have hprod : 0 ≤ L * ((t - max 0 (min 1 s)) * (t + max 0 (min 1 s) - 2 * s)) :=
    mul_nonneg (le_of_lt hL) hsign
  linarith

/-- C19. Over exact arithmetic (`math.Hypot` non-negative with
    `hypot(x,y)^2 = x^2 + y^2`): `distancePointToSegment(p, a, b)` is the
    minimum distance from `p` to the closed segment `ab`: it is the distance
    from `p` to some point `a + t*(b - a)` with `0 <= t <= 1`, and it is at most
    the distance from `p` to every such point; the branch without division is
    taken exactly when `a = b`, where the result is `distance(p, a)`. -/
theorem distancePointToSegment_min (hnn : ∀ x y : R, 0 ≤ Hypot.hypot x y)
    (hsq : ∀ x y : R, Hypot.hypot x y * Hypot.hypot x y = x * x + y * y) (p a b : vec2 R) :
    (∃ t : R, 0 ≤ t ∧ t ≤ 1 ∧
      distancePointToSegment p a b =
        distance p ⟨a.X + t * (b.X - a.X), a.Y + t * (b.Y - a.Y)⟩) ∧
    (∀ t : R, 0 ≤ t → t ≤ 1 →
      distancePointToSegment p a b ≤
        distance p ⟨a.X + t * (b.X - a.X), a.Y + t * (b.Y - a.Y)⟩) ∧
    ((b.X - a.X) * (b.X - a.X) + (b.Y - a.Y) * (b.Y - a.Y) = 0 ↔ a = b) ∧
    (a = b → distancePointToSegment p a b = distance p a) := by
  have hdeg : (b.X - a.X) * (b.X - a.X) + (b.Y - a.Y) * (b.Y - a.Y) = 0 ↔ a = b := by
    constructor
    · intro h
      obtain ⟨h1, h2⟩ := sq_sum_eq_zero _ _ h
      cases a
      cases b
      simp only at h1 h2
      rw [sub_eq_zero.mp h1, sub_eq_zero.mp h2]
    · intro h
      rw [h]
      simp
  by_cases hz : (b.X - a.X) * (b.X - a.X) + (b.Y - a.Y) * (b.Y - a.Y) = 0
  · have hab := hdeg.mp hz
    have hval : distancePointToSegment p a b = distance p a := by
      unfold distancePointToSegment
      simp only [hz, if_true]
    have hpt : ∀ t : R, (⟨a.X + t * (b.X - a.X), a.Y + t * (b.Y - a.Y)⟩ : vec2 R) = a := by
      intro t
      rw [← hab]
      cases a
      simp
    refine ⟨⟨0, le_refl _, by norm_num, ?_⟩, ?_, hdeg, fun _ => hval⟩
    · rw [hval, hpt]
    · intro t _ _
      rw [hval, hpt]
  · have hL : 0 < (b.X - a.X) * (b.X - a.X) + (b.Y - a.Y) * (b.Y - a.Y) :=
      lt_of_le_of_ne (add_nonneg (mul_self_nonneg _) (mul_self_nonneg _)) (Ne.symm hz)
    have hval : distancePointToSegment p a b =
        distance p ⟨a.X + (b.X - a.X) * max 0 (min 1
            (((p.X - a.X) * (b.X - a.X) + (p.Y - a.Y) * (b.Y - a.Y)) /
              ((b.X - a.X) * (b.X - a.X) + (b.Y - a.Y) * (b.Y - a.Y)))),
          a.Y + (b.Y - a.Y) * max 0 (min 1
            (((p.X - a.X) * (b.X - a.X) + (p.Y - a.Y) * (b.Y - a.Y)) /
              ((b.X - a.X) * (b.X - a.X) + (b.Y - a.Y) * (b.Y - a.Y))))⟩ := by
      unfold distancePointToSegment
      simp only [hz, if_false]
    refine ⟨⟨max 0 (min 1
        (((p.X - a.X) * (b.X - a.X) + (p.Y - a.Y) * (b.Y - a.Y)) /
          ((b.X - a.X) * (b.X - a.X) + (b.Y - a.Y) * (b.Y - a.Y)))),
      le_max_left _ _, max_le (by norm_num) (min_le_left _ _), ?_⟩, ?_, hdeg,
      fun hab => absurd (hdeg.mpr hab) hz⟩
    · rw [hval]
      simp only [mul_comm]
    · intro t h0 h1
      rw [hval]
      unfold distance
      apply hypot_le_hypot hnn hsq
      have := clamp_minimises (p.X - a.X) (p.Y - a.Y) (b.X - a.X) (b.Y - a.Y) t hL h0 h1
      have e1 : ∀ w : R, p.X - (a.X + (b.X - a.X) * w) = p.X - a.X - (b.X - a.X) * w := by
        intro w; ring
      have e2 : ∀ w : R, p.Y - (a.Y + (b.Y - a.Y) * w) = p.Y - a.Y - (b.Y - a.Y) * w := by
        intro w; ring
      have e3 : p.X - (a.X + t * (b.X - a.X)) = p.X - a.X - (b.X - a.X) * t := by ring
      have e4 : p.Y - (a.Y + t * (b.Y - a.Y)) = p.Y - a.Y - (b.Y - a.Y) * t := by ring
      simp only [e1, e2, e3, e4]
      exact this

/-- C19, worked example over the real numbers with
    `hypot x y = sqrt (x*x + y*y)`: for `p = (0, 1)` and the segment from
    `(-1, 0)` to `(1, 0)` the result is at most the distance from `p` to the
    end point `a` (`t = 0`). -/
theorem distancePointToSegment_min_witness :
    @distancePointToSegment ℝ _ ⟨fun x y => Real.sqrt (x * x + y * y)⟩
        ⟨0, 1⟩ ⟨-1, 0⟩ ⟨1, 0⟩ ≤
      @distance ℝ _ ⟨fun x y => Real.sqrt (x * x + y * y)⟩
        ⟨0, 1⟩ ⟨-1 + 0 * (1 - -1), 0 + 0 * (0 - 0)⟩ :=
  (@distancePointToSegment_min ℝ _ ⟨fun x y => Real.sqrt (x * x + y * y)⟩
    (fun _ _ => Real.sqrt_nonneg _)
    (fun x y => Real.mul_self_sqrt (add_nonneg (mul_self_nonneg x) (mul_self_nonneg y)))
    ⟨0, 1⟩ ⟨-1, 0⟩ ⟨1, 0⟩).2.1 0 (le_refl 0) zero_le_one

/-! ## Rewards are paid once -/

theorem Evolves.refl (es : List (enemy R)) : Evolves es es := by
  induction es with
  | nil => trivial
  | cons e es ih => exact ⟨⟨rfl, fun h => h⟩, ih⟩

theorem bounty_self (es : List (enemy R)) : bounty es es = 0 := by
  induction es with
  | nil => rfl
  | cons e es ih =>
    simp only [bounty, ih, add_zero]
    rw [if_neg]
    rintro ⟨h1, h2⟩
    rw [h1] at h2
    exact absurd h2 (by simp)

theorem Evolves.trans_bounty (xs : List (enemy R)) :
    ∀ ys zs : List (enemy R), Evolves xs ys → Evolves ys zs →
      Evolves xs zs ∧ bounty xs zs = bounty xs ys + bounty ys zs := by
  induction xs with
  | nil =>
    intro ys zs h1 h2
    cases ys with
    | nil =>
      cases zs with
      | nil => exact ⟨trivial, rfl⟩
      | cons z zs => exact absurd h2 (by simp [Evolves])
    | cons y ys => exact absurd h1 (by simp [Evolves])
  | cons x xs ih =>
    intro ys zs h1 h2
    cases ys with
    | nil => exact absurd h1 (by simp [Evolves])
    | cons y ys =>
      cases zs with
      | nil => exact absurd h2 (by simp [Evolves])
      | cons z zs =>
        obtain ⟨⟨r1, a1⟩, t1⟩ := h1
        obtain ⟨⟨r2, a2⟩, t2⟩ := h2
        obtain ⟨he, hb⟩ := ih ys zs t1 t2
        refine ⟨⟨⟨r2.trans r1, fun h => a2 (a1 h)⟩, he⟩, ?_⟩
        simp only [bounty, hb]
        rcases Bool.eq_false_or_eq_true x.alive with hx | hx
        · rcases Bool.eq_false_or_eq_true y.alive with hy | hy
          · rcases Bool.eq_false_or_eq_true z.alive with hz | hz
            · simp [hx, hy, hz]
            · simp [hx, hy, hz, r1]
              ring
          · have hz := a2 hy
            simp [hx, hy, hz]
            ring
        · have hy := a1 hx
          have hz := a2 hy
          simp [hx, hy, hz]

theorem hitLoop_bounty (p : projectile R) (es : List (enemy R)) (gold score : ℤ) :
    Evolves es (hitLoop p es gold score).1 ∧
    (hitLoop p es gold score).2.1 = gold + bounty es (hitLoop p es gold score).1 ∧
    (hitLoop p es gold score).2.2.1 = score + 3 * bounty es (hitLoop p es gold score).1 := by
  induction es with
  | nil => exact ⟨trivial, by simp [hitLoop, bounty], by simp [hitLoop, bounty]⟩
  | cons e es ih =>
    obtain ⟨h1, h2, h3⟩ := ih
    have hself : ¬ (e.alive = true ∧ e.alive = false) := by
      rintro ⟨a, b⟩
      rw [a] at b
      exact absurd b (by simp)
    simp only [hitLoop]
    split
    · refine ⟨⟨⟨rfl, fun h => h⟩, h1⟩, ?_, ?_⟩
      · simp only [bounty, if_neg hself, zero_add]
        exact h2
      · simp only [bounty, if_neg hself, zero_add]
        exact h3
    · rename_i hskip
      have halive : e.alive = true := by
        by_contra hne
        exact hskip (Or.inl (by simpa using hne))
      split
      · split
        · refine ⟨⟨⟨rfl, fun _ => rfl⟩, Evolves.refl es⟩, ?_, ?_⟩
          · simp only [bounty, bounty_self, add_zero, halive, true_and, if_true]
          · simp only [bounty, bounty_self, add_zero, halive, true_and, if_true]
            ring
        · refine ⟨⟨⟨rfl, fun h => h⟩, Evolves.refl es⟩, ?_, ?_⟩
          · simp only [bounty, bounty_self, add_zero, if_neg hself]
          · simp only [bounty, bounty_self, add_zero, if_neg hself, mul_zero]
      · refine ⟨⟨⟨rfl, fun h => h⟩, h1⟩, ?_, ?_⟩
        · simp only [bounty, if_neg hself, zero_add]
          exact h2
        · simp only [bounty, if_neg hself, zero_add]
          exact h3

theorem updateProjectilesLoop_cons_snd (dt : R) (p : projectile R) (ps : List (projectile R))
    (es : List (enemy R)) (gold score : ℤ) :
    (updateProjectilesLoop dt (p :: ps) es gold score).2 =
      if p.alive = false then (updateProjectilesLoop dt ps es gold score).2
      else (updateProjectilesLoop dt ps (hitLoop (moved dt p) es gold score).1
        (hitLoop (moved dt p) es gold score).2.1 (hitLoop (moved dt p) es gold score).2.2.1).2 := by
  simp only [updateProjectilesLoop]
  split <;> rfl

theorem updateProjectilesLoop_bounty (dt : R) (ps : List (projectile R)) :
    ∀ (es : List (enemy R)) (gold score : ℤ),
      Evolves es (updateProjectilesLoop dt ps es gold score).2.1 ∧
      (updateProjectilesLoop dt ps es gold score).2.2.1 =
        gold + bounty es (updateProjectilesLoop dt ps es gold score).2.1 ∧
      (updateProjectilesLoop dt ps es gold score).2.2.2 =
        score + 3 * bounty es (updateProjectilesLoop dt ps es gold score).2.1 := by
  induction ps with
  | nil =>
    intro es gold score
    exact ⟨Evolves.refl es, by simp [updateProjectilesLoop, bounty_self],
      by simp [updateProjectilesLoop, bounty_self]⟩
  | cons p ps ih =>
    intro es gold score
    rw [updateProjectilesLoop_cons_snd]
    split
    · exact ih es gold score
    · obtain ⟨a1, a2, a3⟩ := hitLoop_bounty (moved dt p) es gold score
      obtain ⟨b1, b2, b3⟩ := ih (hitLoop (moved dt p) es gold score).1
        (hitLoop (moved dt p) es gold score).2.1 (hitLoop (moved dt p) es gold score).2.2.1
      obtain ⟨c1, c2⟩ := Evolves.trans_bounty es _ _ a1 b1
      exact ⟨c1, by linarith, by linarith⟩

/-- C20. For every state and every `dt`, one call of `updateProjectiles`
    rewards each enemy at most once, whatever the number of projectiles and
    their targets: the increase of gold is the sum of the rewards of exactly
    the enemies that were alive before the call and are dead after it
    (`bounty`), and the increase of score is 3 times the increase of gold; the
    enemy list keeps its length and rewards, and no dead enemy comes back. -/
theorem updateProjectiles_rewards_once (g : game R) (dt : R) :
    (updateProjectiles dt g).gold - g.gold = bounty g.enemies (updateProjectiles dt g).enemies ∧
    (updateProjectiles dt g).score - g.score =
      3 * ((updateProjectiles dt g).gold - g.gold) ∧
    Evolves g.enemies (updateProjectiles dt g).enemies := by
  obtain ⟨h1, h2, h3⟩ := updateProjectilesLoop_bounty dt g.projectiles g.enemies g.gold g.score
  have hg : (updateProjectiles dt g).gold =
      (updateProjectilesLoop dt g.projectiles g.enemies g.gold g.score).2.2.1 := rfl
  have hs : (updateProjectiles dt g).score =
      (updateProjectilesLoop dt g.projectiles g.enemies g.gold g.score).2.2.2 := rfl
  have he : (updateProjectiles dt g).enemies =
      (updateProjectilesLoop dt g.projectiles g.enemies g.gold g.score).2.1 := rfl
  rw [hg, hs, he]
  exact ⟨by linarith, by linarith, h1⟩

/-- C20, worked example: two projectiles aimed at the same enemy (reward 18)
    both reach it in one call; the first kills it, the second finds it dead,
    and gold goes up by 18 once (180 to 198), score by 54. -/
theorem updateProjectiles_rewards_once_witness :
    (updateProjectiles (1 / 100) doubleHitDemo).gold = 198 ∧
    (updateProjectiles (1 / 100) doubleHitDemo).score = 54 ∧
    bounty doubleHitDemo.enemies (updateProjectiles (1 / 100) doubleHitDemo).enemies = 18 ∧
    (updateProjectiles (1 / 100) doubleHitDemo).projectiles.map (fun p => p.alive) =
      [false, true] ∧
    (updateProjectiles (1 / 100) doubleHitDemo).gold - doubleHitDemo.gold =
      bounty doubleHitDemo.enemies (updateProjectiles (1 / 100) doubleHitDemo).enemies ∧
    (updateProjectiles (1 / 100) doubleHitDemo).score - doubleHitDemo.score =
      3 * ((updateProjectiles (1 / 100) doubleHitDemo).gold - doubleHitDemo.gold) ∧
    Evolves doubleHitDemo.enemies (updateProjectiles (1 / 100) doubleHitDemo).enemies :=
  ⟨by decide!, by decide!, by decide!, by decide!,
    updateProjectiles_rewards_once doubleHitDemo (1 / 100)⟩

/-! ## The clamp of `positionAlongPath` beyond the end of the path -/

theorem segmentLengths_sum_nonneg (hnn : ∀ x y : R, 0 ≤ Hypot.hypot x y) (ps : List (vec2 R)) :
    0 ≤ (segmentLengths ps).sum := by
  induction ps with
  | nil => simp [segmentLengths]
  | cons p ps ih =>
    cases ps with
    | nil => simp [segmentLengths]
    | cons q rest =>
      simp only [segmentLengths, List.sum_cons]
      have : 0 ≤ distance p q := hnn _ _
      linarith

theorem getLast?_of_segmentLengths_sum_zero (hnn : ∀ x y : R, 0 ≤ Hypot.hypot x y)
    (hz : ∀ x y : R, Hypot.hypot x y = 0 → x = 0 ∧ y = 0) (rest : List (vec2 R)) :
    ∀ q : vec2 R, (segmentLengths (q :: rest)).sum = 0 → (q :: rest).getLast? = some q := by
  induction rest with
  | nil => intro q _; rfl
  | cons r rest ih =>
    intro q h
    simp only [segmentLengths, List.sum_cons] at h
    have h1 : 0 ≤ distance q r := hnn _ _
    have h2 := segmentLengths_sum_nonneg hnn (r :: rest)
    have hd : distance q r = 0 := by linarith
    have hs : (segmentLengths (r :: rest)).sum = 0 := by linarith
    obtain ⟨hx, hy⟩ := hz _ _ hd
    have hqr : q = r := by
      cases q
      cases r
      simp only at hx hy
      rw [sub_eq_zero.mp hx, sub_eq_zero.mp hy]
    rw [List.getLast?_cons_cons, ih r hs, hqr]

theorem positionAlongPathLoop_clamp (hnn : ∀ x y : R, 0 ≤ Hypot.hypot x y)
    (hz : ∀ x y : R, Hypot.hypot x y = 0 → x = 0 ∧ y = 0) (ps : List (vec2 R)) :
    ∀ (pre : List (vec2 R)) (remaining : R), ps ≠ [] → 0 < remaining →
      (segmentLengths ps).sum ≤ remaining →
      positionAlongPathLoop (pre ++ ps) pre.length remaining (segmentLengths ps) =
        (pre ++ ps).getLast? := by
  induction ps with
  | nil => intro pre remaining h; exact absurd rfl h
  | cons p ps ih =>
    intro pre remaining _ hpos hsum
    cases ps with
    | nil => simp [segmentLengths, positionAlongPathLoop]
    | cons q rest =>
      simp only [segmentLengths, List.sum_cons] at hsum
      simp only [segmentLengths, positionAlongPathLoop]
      have hd : 0 ≤ distance p q := hnn _ _
      have hS := segmentLengths_sum_nonneg hnn (q :: rest)
      by_cases hin : remaining ≤ distance p q
      · rw [if_pos hin]
        have hrem : remaining = distance p q := by linarith
        have hS0 : (segmentLengths (q :: rest)).sum = 0 := by linarith
        have hlast := getLast?_of_segmentLengths_sum_zero hnn hz rest q hS0
        have hne : distance p q ≠ 0 := by
          rw [← hrem]
          exact ne_of_gt hpos
        have hi : (pre ++ p :: q :: rest)[pre.length]? = some p := by
          rw [List.getElem?_append_right (le_refl _)]
          simp
        have hi1 : (pre ++ p :: q :: rest)[pre.length + 1]? = some q := by
          rw [List.getElem?_append_right (by omega)]
          simp
        have hgl : (pre ++ p :: q :: rest).getLast? = some q := by
          rw [List.getLast?_append, List.getLast?_cons_cons, hlast]
          rfl
        simp only [hi, hi1, hrem, div_self hne, vec2_lerp_one, hgl]
      · rw [if_neg hin]
        have := ih (pre ++ [p]) (remaining - distance p q) (by simp)
          (by linarith [not_le.mp hin]) (by linarith)
        simp only [List.length_append, List.length_singleton, List.append_assoc,
          List.singleton_append] at this
        exact this

/-- In exact arithmetic, beyond the end of the path (`a >= totalLength`,
    lengths as `computePathLengths` computes them) `positionAlongPath` returns
    the last waypoint, as long as `a > 0`, which keeps the division away from
    a zero-length first segment. -/
theorem positionAlongPath_clamp (hnn : ∀ x y : R, 0 ≤ Hypot.hypot x y)
    (hz : ∀ x y : R, Hypot.hypot x y = 0 → x = 0 ∧ y = 0) (g : game R) (a : R)
    (hc : computePathLengths g = some g) (ha : g.totalLength ≤ a) (hpos : 0 < a) :
    positionAlongPath g a = g.path.getLast? := by
  unfold computePathLengths at hc
  split at hc
  · exact absurd hc (by simp)
  · rename_i hne
    injection hc with hc
    have hL : g.pathLengths = segmentLengths g.path := by rw [← hc]
    have hT : g.totalLength = (segmentLengths g.path).foldl (fun acc seg => acc + seg) 0 := by
      rw [← hc]
    rw [hT, foldl_add_eq_sum, zero_add] at ha
    have hnil : g.path ≠ [] := by
      intro h
      rw [h] at hne
      exact hne rfl
    have := positionAlongPathLoop_clamp hnn hz g.path [] a hnil hpos ha
    simp only [List.nil_append, List.length_nil] at this
    unfold positionAlongPath
    rw [hL]
    exact this



/-! ## Segment boundaries in binary64 -/

theorem IntBelow.succ {x : ℚ} (h : IntBelow 52 x) : IntBelow 53 x :=
  ⟨h.1, lt_trans h.2 (by norm_num)⟩

end TowerDefense
